import Mathlib

/-!
Verification of the context-organizer tree construction and note command.

Shallow embedding of `src/core/treeDataProvider.ts` and
`src/commands/addNoteToFileCommand.ts`. JSON documents are modelled by an
inductive `Json` value (numbers as `Int`: the documents in scope carry only
booleans, strings, arrays and objects; the single numeric counterexample value
is integral). JavaScript objects are modelled as ordered association lists,
matching JS insertion-order semantics of `JSON.parse` / property assignment /
`delete`. Runtime exceptions (TypeError on property access of
`undefined`/`null`, `for..of` over a non-iterable, strict-mode assignment to a
primitive's property) are modelled with `Except JsErr`; `undefined` is
`Option.none` at use sites. `SyntaxError` from `JSON.parse` is modelled by the
`FileState.unparsable` input state rather than a `JsErr` value, since in the
source it can only arise from parsing the raw file content.
-/

/-- A JSON value, as produced by `JSON.parse`. Object fields keep insertion
order, mirroring JavaScript objects. -/
inductive Json where
  | null : Json
  | bool : Bool → Json
  | num : Int → Json
  | str : String → Json
  | arr : List Json → Json
  | obj : List (String × Json) → Json

/-- JavaScript runtime errors that the modelled code can throw. -/
inductive JsErr where
  | typeError : JsErr
  | notIterable : JsErr

/-- Ordered-object field lookup: first field with the given key, mirroring JS
property lookup (parsed JSON objects have unique keys). -/
def lookupField : List (String × Json) → String → Option Json
  | [], _ => none
  | (k, v) :: rest, key => if k = key then some v else lookupField rest key

/-- Whether the object has a field with the given key. -/
def hasField (fields : List (String × Json)) (key : String) : Bool :=
  (lookupField fields key).isSome

/-- JS property assignment `o[k] = v`: overwrites the existing field in place
(keeping its position) or appends a new field at the end. -/
def setField : List (String × Json) → String → Json → List (String × Json)
  | [], key, v => [(key, v)]
  | (k, w) :: rest, key, v =>
    if k = key then (key, v) :: rest else (k, w) :: setField rest key v

/-- JS `delete o[k]`: removes the field with the given key. -/
def delField : List (String × Json) → String → List (String × Json)
  | [], _ => []
  | (k, w) :: rest, key =>
    if k = key then rest else (k, w) :: delField rest key

/-- JavaScript truthiness of a defined value. Objects and arrays are always
truthy; `false`, `0`, the empty string and `null` are falsy. -/
def truthy : Json → Bool
  | .null => false
  | .bool b => b
  | .num n => n != 0
  | .str s => s ≠ ""
  | .arr _ => true
  | .obj _ => true

/-- Truthiness of a possibly-`undefined` value (`undefined` is falsy). -/
def truthyO : Option Json → Bool
  | none => false
  | some j => truthy j

/-- Non-throwing JS property read on a value known to be neither `null` nor
`undefined`: object lookup, or `undefined` for primitives. (Indexing a string
or array by a non-numeric name also yields `undefined`; numeric indexing of
strings/arrays is not exercised by any document in scope.) -/
def getPropND (j : Json) (k : String) : Option Json :=
  match j with
  | .obj fields => lookupField fields k
  | _ => none

/-- JS property access `v.k` on a possibly-`undefined` value: throws a
TypeError on `undefined` or `null`, otherwise reads the property. -/
def jsAccess (v : Option Json) (k : String) : Except JsErr (Option Json) :=
  match v with
  | none => .error .typeError
  | some .null => .error .typeError
  | some j => .ok (getPropND j k)

/-! ### Path model

`path.sep` is `/`. `String` in this toolchain is a wrapper around `List Char`,
so `p.split(path.sep)` (a single-character separator) is modelled by splitting
the character list on `'/'`. `path.join` concatenates segments with the
separator (its `.`/`..`/duplicate-separator normalization is not exercised by
relative paths stored in a contexts document). `path.basename` is the last
`/`-separated segment, and `path.relative(root, abs)` for `abs` under `root`
drops the root's leading segments. -/

/-- Split a character list on `'/'`, as `String.prototype.split('/')` does:
the empty list yields one empty segment. -/
def splitSegs : List Char → List String
  | [] => [""]
  | c :: cs =>
    if c = '/' then "" :: splitSegs cs
    else
      match splitSegs cs with
      | [] => [String.mk [c]]
      | h :: t => (String.mk [c] ++ h) :: t

/-- `p.split(path.sep)` on a string. -/
def splitPath (p : String) : List String := splitSegs p.data

/-- Join segments with `/`, as `path.join` does for already-normal segments. -/
def joinSegs : List String → String
  | [] => ""
  | [s] => s
  | s :: rest => s ++ "/" ++ joinSegs (rest)

/-- `path.join(root, ...parts)`. -/
def joinPath (root : String) (parts : List String) : String :=
  joinSegs (root :: parts)

/-- `path.basename`: the last `/`-separated segment. -/
def basename (p : String) : String := (splitPath p).getLastD ""

/-- Index of the last `'.'` in a character list, if any. -/
def lastDotIdx : List Char → Option Nat
  | [] => none
  | c :: cs =>
    match lastDotIdx cs with
    | some i => some (i + 1)
    | none => if c = '.' then some 0 else none

/-- `path.extname` on a basename: the suffix from the last dot, except that a
leading dot (hidden files) and the special name `..` yield the empty string,
matching Node's implementation. -/
def extnameBase (b : String) : String :=
  if b = ".." then ""
  else
    match lastDotIdx b.data with
    | none => ""
    | some 0 => ""
    | some i => String.mk (b.data.drop i)

/-- `path.extname(p)`. -/
def extname (p : String) : String := extnameBase (basename p)

/-- Boolean segment-list prefix test. -/
def segsPre : List String → List String → Bool
  | [], _ => true
  | _ :: _, [] => false
  | x :: xs, y :: ys => x = y && segsPre xs ys

/-- `path.relative(root, abs)` for the case exercised by the source: when the
root's segments lead `abs`, the remainder joined by `/`; other cases (which
would produce `..` segments) do not arise for files stored under the
workspace root and are modelled as returning `abs` unchanged. -/
def relativeOf (root abs : String) : String :=
  if segsPre (splitPath root) (splitPath abs) then
    joinSegs ((splitPath abs).drop (splitPath root).length)
  else abs

/-! ### Tree nodes

`Section`, `Folder` and `File` from `treeDataProvider.ts`, all extending
`Container` (every node owns a `children` list — in particular `File` nodes
have one, which claim C9 exercises). A `File` stores its label
(`path.basename(filePath)`), absolute `filePath`, `id` (`filePath +
contextName`), optional `description` and `tooltip`. -/

inductive Node where
  | Section : String → List Node → Node
  | Folder : String → List Node → Node
  | File : String → String → String → Option String → Option String → List Node → Node

/-- The `label` of a tree item. -/
def Node.label : Node → String
  | .Section l _ => l
  | .Folder l _ => l
  | .File l _ _ _ _ _ => l

/-- The `children` array of a container. -/
def Node.children : Node → List Node
  | .Section _ cs => cs
  | .Folder _ cs => cs
  | .File _ _ _ _ _ cs => cs

/-- Replace a container's children (the functional image of mutating the
`children` array through the retained reference). -/
def Node.withChildren : Node → List Node → Node
  | .Section l _, cs => .Section l cs
  | .Folder l _, cs => .Folder l cs
  | .File l fp i d t _, cs => .File l fp i d t cs

/-- The `description` of a node (`File` nodes are the only ones that set it). -/
def Node.descr : Node → Option String
  | .Section _ _ => none
  | .Folder _ _ => none
  | .File _ _ _ d _ _ => d

/-- `parts[parts.length - 2]`: the second-to-last element, or `undefined`
when the list has fewer than two elements. -/
def secondToLastOpt (l : List String) : Option String :=
  match l with
  | [] => none
  | [_] => none
  | l => l.get? (l.length - 2)

/-- Template-literal stringification of a JSON value (only string notes are
exercised; other cases follow JS `toString` loosely, with array join not
modelled). -/
def jsDisplay : Json → String
  | .str s => s
  | .bool true => "true"
  | .bool false => "false"
  | .num n => toString n
  | .null => "null"
  | .arr _ => ""
  | .obj _ => "[object Object]"

/-- The value of `config.notes && config.notes[relativePath]` seen by the
`File` constructor: `undefined` when `config.notes` is absent or falsy,
otherwise the looked-up note value. -/
def noteValAt (notesVal : Option Json) (rel : String) : Option Json :=
  match notesVal with
  | some nv => if truthy nv then getPropND nv rel else none
  | none => none

/-- The `File` constructor: computes the label from the basename, re-reads the
configuration (same parsed value) for `showFolders` and `notes`, attaches the
note tooltip when `config.notes && config.notes[relativePath]` is truthy, and
sets the description — parent-directory segment of the absolute path in flat
mode, note glyph in grouped mode when a truthy note exists, nothing
otherwise. `notesVal` is `config.notes` (possibly `undefined`); the
constructor's own `config.configs.showFolders` read succeeds whenever the
caller's did, so `showFolders` is passed in. -/
def mkFileCore (root : String) (showFolders : Bool) (notesVal : Option Json)
    (fullPath ctx : String) : Node :=
  let abs := joinPath root (splitPath fullPath)
  let rel := relativeOf root abs
  let noteV : Option Json := noteValAt notesVal rel
  let tooltip : Option String :=
    if truthyO noteV then
      some (basename abs ++ "\n\n📝 Note: " ++ jsDisplay (noteV.getD .null))
    else none
  let desc : Option String :=
    if !showFolders then secondToLastOpt (splitPath abs)
    else if truthyO noteV then some "📝" else none
  Node.File (basename abs) abs (abs ++ ctx) desc tooltip []

/-- Replace the children of the first node whose label matches `p` by applying
`f` to them (the functional image of `currentLevel =
existingItem.children` followed by pushes into that array). -/
def descend (p : String) (f : List Node → List Node) : List Node → List Node
  | [] => []
  | n :: ns =>
    if n.label = p then n.withChildren (f n.children) :: ns
    else n :: descend p f ns

/-- The `showFolders` branch of `addToTree`: walk the path segments left to
right; a non-final segment reuses the first node with that label (whatever its
kind) or appends a fresh `Folder`; the final segment appends the file node
unless some node at the current level already bears its label. -/
def insertGrouped (fileNode : Node) : List String → List Node → List Node
  | [], level => level
  | [p], level =>
    if level.any (fun n => n.label = p) then level else level ++ [fileNode]
  | p :: q :: rest, level =>
    if level.any (fun n => n.label = p) then
      descend p (insertGrouped fileNode (q :: rest)) level
    else
      level ++ [Node.Folder p (insertGrouped fileNode (q :: rest) [])]

/-- `config.configs.showFolders` as a boolean: throws when `config` or
`config.configs` is `null`/`undefined`, otherwise applies JS truthiness. -/
def showFoldersOf (cfg : Json) : Except JsErr Bool := do
  let c ← jsAccess (some cfg) "configs"
  let sf ← jsAccess c "showFolders"
  pure (truthyO sf)

/-- `addToTree(parent, fullPath, contextName)`: re-reads the configuration
file (the same parsed value) for `showFolders`, then inserts the file node —
grouped insertion per path segment, or a plain append in flat mode. The `File`
construction is hoisted (it is pure; in the source it only runs when actually
pushed). -/
def addToTree (root : String) (cfg : Json) (level : List Node)
    (fullPath ctx : String) : Except JsErr (List Node) := do
  let sf ← showFoldersOf cfg
  let fileNode := mkFileCore root sf (getPropND cfg "notes") fullPath ctx
  if sf then
    pure (insertGrouped fileNode (splitPath fullPath) level)
  else
    pure (level ++ [fileNode])

/-- The inner loop of `handleLoadConfig` over one context's path list: a
non-string entry throws (both `path.extname` and `String.prototype.split`
reject non-strings); in flat mode entries whose `path.extname` is empty are
skipped. -/
def buildSection (root : String) (cfg : Json) (sf : Bool) (ctx : String) :
    List Json → List Node → Except JsErr (List Node)
  | [], acc => .ok acc
  | v :: vs, acc =>
    match v with
    | .str fp =>
      if sf || extname fp ≠ "" then
        match addToTree root cfg acc fp ctx with
        | .error e => .error e
        | .ok acc2 => buildSection root cfg sf ctx vs acc2
      else buildSection root cfg sf ctx vs acc
    | _ => .error .typeError

/-- `for..of` over a context's value: arrays yield their elements, strings
their characters; anything else throws a TypeError. -/
def forOfVals : Option Json → Except JsErr (List Json)
  | some (.arr xs) => .ok xs
  | some (.str s) => .ok (s.data.map (fun c => Json.str (String.mk [c])))
  | _ => .error .notIterable

/-- `for..in` keys of `config.contexts`: object keys in insertion order;
`null`/`undefined`/primitives iterate nothing. (Arrays and strings would
enumerate index keys, and integer-like object keys would be reordered first —
neither shape occurs in a contexts document.) -/
def forInKeys (v : Option Json) : List String :=
  match v with
  | some (.obj fields) => fields.map (fun kv => kv.1)
  | _ => []

/-- The outer loop of `handleLoadConfig`: one `Section` pushed per context
key, after its items are built. An error thrown mid-loop leaves the already
pushed sections in place (the source pushes directly into `this._items`). -/
def sectionsLoop (root : String) (cfg : Json) (sf : Bool) :
    List String → List Node → List Node × Option JsErr
  | [], acc => (acc, none)
  | k :: ks, acc =>
    match (do
        let cv ← jsAccess (some cfg) "contexts"
        let lv ← jsAccess cv k
        let vs ← forOfVals lv
        buildSection root cfg sf k vs []) with
    | .error e => (acc, some e)
    | .ok items => sectionsLoop root cfg sf ks (acc ++ [Node.Section k items])

/-- `handleLoadConfig` on an already parsed document: items accumulated so
far, plus the error that escaped to `loadConfig`'s catch, if any. -/
def handleLoadConfig (root : String) (cfg : Json) : List Node × Option JsErr :=
  match showFoldersOf cfg with
  | .error e => ([], some e)
  | .ok sf => sectionsLoop root cfg sf (forInKeys (getPropND cfg "contexts")) []

/-! ### Load boundary (`loadConfig`) -/

/-- The state of `.vscode/contexts.json`: missing, present but rejected by
`JSON.parse` (carrying the parser's message), or parsed to a value. -/
inductive FileState where
  | absent : FileState
  | unparsable : String → FileState
  | content : Json → FileState

/-- Observable outcome of `loadConfig`: the `_items` root list, the
notifications shown, and whether this read path wrote to the filesystem
(`treeDataProvider.ts` contains no write call, so `wrote` is always false). -/
structure LoadResult where
  items : List Node
  warnings : List String
  errors : List String
  wrote : Bool

/-- `path.join(workspaceRoot, '.vscode', 'contexts.json')`. -/
def configPathOf (root : String) : String := joinPath root [".vscode", "contexts.json"]

/-- The warning shown when the file is absent (its wording promises a file
that this code path never creates). -/
def warnAbsentMsg : String :=
  "File contexts.json was not found in the .vscode folder, so it has been created for you."

/-- The generic error notification. -/
def errGenericMsg (root : String) : String :=
  "Error while reading file " ++ configPathOf root ++ ", check your file"

/-- The SyntaxError notification (the source's line 61 lacks the `${}`
interpolation, so the literal text `configPath` is reproduced). -/
def errDetailedMsg (m : String) : String :=
  "Error while reading file configPath, details : " ++ m

/-- `loadConfig`: clears `_items`, then — absent file: warning only; present
file: run `handleLoadConfig` under try/catch, showing the generic message and
then either the SyntaxError detail (parse failure) or the generic message
again. Items pushed before a mid-construction error remain. -/
def loadConfig (root : String) (s : FileState) : LoadResult :=
  match s with
  | .absent =>
    { items := [], warnings := [warnAbsentMsg], errors := [], wrote := false }
  | .unparsable m =>
    { items := [], warnings := [],
      errors := [errGenericMsg root, errDetailedMsg m], wrote := false }
  | .content cfg =>
    match handleLoadConfig root cfg with
    | (items, none) => { items := items, warnings := [], errors := [], wrote := false }
    | (items, some _) =>
      { items := items, warnings := [],
        errors := [errGenericMsg root, errGenericMsg root], wrote := false }

/-! ### Serialization (`JSON.stringify(config, null, 2)`) -/

/-- JSON string escaping (`\uXXXX` escapes for other control characters are
not exercised by documents in scope). -/
def jsonEscapeChar (c : Char) : String :=
  if c = '"' then "\\\""
  else if c = '\\' then "\\\\"
  else if c = '\n' then "\\n"
  else if c = '\r' then "\\r"
  else if c = '\t' then "\\t"
  else String.mk [c]

/-- A quoted JSON string literal. -/
def quoteJson (s : String) : String :=
  "\"" ++ String.join (s.data.map jsonEscapeChar) ++ "\""

/-- `JSON.stringify(j, null, 2)` at enclosing indentation `pad`: two-space
indentation, entries separated by `,\n`, empty containers printed inline. -/
def stringifyAt (pad : String) (j : Json) : String :=
  match j with
  | .null => "null"
  | .bool true => "true"
  | .bool false => "false"
  | .num n => toString n
  | .str s => quoteJson s
  | .arr xs =>
    if xs.isEmpty then "[]"
    else "[\n" ++ String.intercalate ",\n"
        (xs.attach.map (fun x => pad ++ "  " ++ stringifyAt (pad ++ "  ") x.1))
        ++ "\n" ++ pad ++ "]"
  | .obj fields =>
    if fields.isEmpty then "\x7b\x7d"
    else "\x7b\n" ++ String.intercalate ",\n"
        (fields.attach.map (fun kv =>
          pad ++ "  " ++ quoteJson kv.1.1 ++ ": " ++ stringifyAt (pad ++ "  ") kv.1.2))
        ++ "\n" ++ pad ++ "\x7d"
termination_by j
decreasing_by
  · have := List.sizeOf_lt_of_mem x.2
    simp_wf
    omega
  · obtain ⟨⟨a, b⟩, hm⟩ := kv
    have := List.sizeOf_lt_of_mem hm
    simp_wf
    simp at this
    omega

/-- `JSON.stringify(j, null, 2)` at top level. -/
def stringify2 (j : Json) : String := stringifyAt "" j

/-! ### The add-note command (`addNoteToFileCommand.ts`) -/

/-- Host-provided inputs of one invocation: the workspace root (if any), the
state of `contexts.json`, the input-box outcome (`none` is the cancellation
signal, distinct from submitting `""`), and whether `writeFileSync`
succeeds. -/
structure NoteEnv where
  workspaceRoot : Option String
  fileState : FileState
  promptResult : Option String
  writeOk : Bool

/-- Observable outcome of one invocation: the document written to disk (and
its serialized text), the notifications, and whether the refresh command was
executed. -/
structure NoteCmdResult where
  written : Option Json
  writtenText : Option String
  info : Option String
  errMsg : Option String
  refreshed : Bool

/-- `if (!config.notes) { config.notes = {}; }` — a falsy `notes` (absent,
`null`, `""`, `0`, `false`) is replaced in place by an empty object. Reading
`.notes` on `null` throws; the strict-mode assignment on a non-object document
throws. (Array documents, whose assignment would instead attach an expando
property, carry no claim and are not modelled.) -/
def setNotesInit (cfg : Json) : Except JsErr Json :=
  match cfg with
  | .obj fields =>
    if truthyO (lookupField fields "notes") then .ok (.obj fields)
    else .ok (.obj (setField fields "notes" (.obj [])))
  | _ => .error .typeError

/-- The mutation on the in-memory document once a note string was submitted:
the empty string deletes the entry (and the whole `notes` field when the map
becomes empty); a non-empty string sets/overwrites the entry. A truthy
non-object `notes` value (possible only for hand-edited documents) throws on
the strict-mode element assignment and is conservatively modelled as throwing
in the deletion case as well; no claim exercises that corner. -/
def applyNote (cfg : Json) (rel note : String) : Except JsErr Json :=
  match cfg with
  | .obj fields =>
    match lookupField fields "notes" with
    | some (.obj nfs) =>
      if note = "" then
        let nfs2 := delField nfs rel
        if nfs2.isEmpty then .ok (.obj (delField fields "notes"))
        else .ok (.obj (setField fields "notes" (.obj nfs2)))
      else .ok (.obj (setField fields "notes" (.obj (setField nfs rel (.str note)))))
    | some _ => .error .typeError
    | none => .error .typeError
  | _ => .error .typeError

/-- `addNoteToFileCommand(fileItem)`: guard on workspace and file, parse under
try/catch, seed and show the input box, return silently on cancellation,
otherwise mutate, write `JSON.stringify(config, null, 2)`, notify and refresh
(write failure is caught: error message, no refresh). An `Except.error`
result is an exception escaping the command (possible only for documents no
claim exercises); no write happens in that case either. -/
def addNoteToFileCommand (env : NoteEnv) (itemFilePath : String) :
    Except JsErr NoteCmdResult :=
  match env.workspaceRoot with
  | none => .ok ⟨none, none, none, some "No workspace folder is open", false⟩
  | some root =>
    match env.fileState with
    | .absent => .ok ⟨none, none, none, some "contexts.json file not found", false⟩
    | .unparsable _ => .ok ⟨none, none, none, some "Error reading contexts.json", false⟩
    | .content cfg0 =>
      let rel := relativeOf root itemFilePath
      match setNotesInit cfg0 with
      | .error e => .error e
      | .ok cfg =>
        match env.promptResult with
        | none => .ok ⟨none, none, none, none, false⟩
        | some note =>
          match applyNote cfg rel note with
          | .error e => .error e
          | .ok cfg2 =>
            if env.writeOk then
              .ok ⟨some cfg2, some (stringify2 cfg2),
                   some (if note = "" then "Note removed" else "Note saved"), none, true⟩
            else
              .ok ⟨none, none, none, some "Error saving note to contexts.json", false⟩

/-- The document written by an invocation, `none` when nothing was written
(an escaped exception also writes nothing: it is raised before
`writeFileSync`). -/
def cmdWritten : Except JsErr NoteCmdResult → Option Json
  | .error _ => none
  | .ok r => r.written

/-- Whether an invocation triggered the tree refresh. -/
def cmdRefreshed : Except JsErr NoteCmdResult → Bool
  | .error _ => false
  | .ok r => r.refreshed

/-! ### Well-typed configuration documents

The shape described by the data model: used to state the universally
quantified claims over documents the spec talks about. `toJson` renders it as
the parsed JSON value the code consumes. -/

structure Configs where
  showFolders : Bool
  orderAlphabetically : Bool

structure ConfigDoc where
  contexts : List (String × List String)
  notes : Option (List (String × String))
  configs : Configs

/-- The `notes` map as a JSON object. -/
def notesJson (ns : List (String × String)) : Json :=
  .obj (ns.map (fun kv => (kv.1, Json.str kv.2)))

/-- The `contexts` map as a JSON object. -/
def contextsJson (cs : List (String × List String)) : Json :=
  .obj (cs.map (fun kv => (kv.1, Json.arr (kv.2.map Json.str))))

/-- The `configs` object as JSON. -/
def configsJson (c : Configs) : Json :=
  .obj [("showFolders", .bool c.showFolders),
        ("orderAlphabetically", .bool c.orderAlphabetically)]

/-- A well-typed document as parsed JSON (the `notes` key is present exactly
when the document has a notes map). -/
def ConfigDoc.toJson (d : ConfigDoc) : Json :=
  .obj ([("contexts", contextsJson d.contexts)]
    ++ (match d.notes with
        | none => []
        | some ns => [("notes", notesJson ns)])
    ++ [("configs", configsJson d.configs)])

/-- The `notes` value a well-typed document presents to `getPropND`. -/
def ConfigDoc.notesVal (d : ConfigDoc) : Option Json :=
  match d.notes with
  | none => none
  | some ns => some (notesJson ns)

/-- Lookup in a typed notes map (first entry with the key). -/
def lookupNote : List (String × String) → String → Option String
  | [], _ => none
  | (k, v) :: rest, key => if k = key then some v else lookupNote rest key

/-- Deletion from a typed notes map (removes the first entry with the key,
as `delete` does on an object with unique keys). -/
def delNote : List (String × String) → String → List (String × String)
  | [], _ => []
  | (k, v) :: rest, key =>
    if k = key then rest else (k, v) :: delNote rest key

/-- Whether a well-typed document holds a non-empty note for a relative
path. -/
def noteNonempty (d : ConfigDoc) (rel : String) : Bool :=
  match d.notes with
  | none => false
  | some ns =>
    match lookupNote ns rel with
    | none => false
    | some s => s ≠ ""

/-- Every level of the forest carries pairwise-distinct labels (the tree-level
reading of "no two nodes with the same label under the same parent"). -/
inductive NodupTree : List Node → Prop where
  | mk (ns : List Node) : (ns.map Node.label).Nodup →
      (∀ n ∈ ns, NodupTree n.children) → NodupTree ns

/-- Membership of a node anywhere in a forest (at the top level or in some
member's subtree). -/
inductive InTree (n : Node) : List Node → Prop where
  | here {ns : List Node} : n ∈ ns → InTree n ns
  | under {ns : List Node} (m : Node) : m ∈ ns → InTree n m.children → InTree n ns

/-- The description discipline of a `File` node in a tree built for
`showFolders = sf` under the notes value `nv`: flat mode shows the
second-to-last segment of the node's absolute path (its parent directory),
grouped mode shows the note glyph exactly when a truthy note exists for the
node's relative path, and nothing otherwise. Non-`File` nodes satisfy it
vacuously. -/
def FileOk (root : String) (sf : Bool) (nv : Option Json) (n : Node) : Prop :=
  ∀ l fp i d t ch, n = Node.File l fp i d t ch →
    d = if !sf then secondToLastOpt (splitPath fp)
        else if truthyO (noteValAt nv (relativeOf root fp)) then some "📝" else none

/-- The document the add-note command persists on an empty-string submission,
stated over the well-typed input: the target's note entry is deleted, and the
`notes` key survives exactly when other entries remain. -/
def emptyNoteResultDoc (root : String) (d : ConfigDoc) (fp : String) : Json :=
  let rel := relativeOf root fp
  match d.notes with
  | none => .obj [("contexts", contextsJson d.contexts), ("configs", configsJson d.configs)]
  | some ns =>
    let ns2 := delNote ns rel
    if ns2.isEmpty then
      .obj [("contexts", contextsJson d.contexts), ("configs", configsJson d.configs)]
    else
      .obj [("contexts", contextsJson d.contexts), ("notes", notesJson ns2),
            ("configs", configsJson d.configs)]

/-! ### Concrete documents used by the scenario claims and counterexamples -/

/-- C2's scenario document: one context `A` with `x/y.ts` and `x/z.ts`,
grouped mode. -/
def sharedFolderDoc : ConfigDoc := ⟨[("A", ["x/y.ts", "x/z.ts"])], none, ⟨true, false⟩⟩

/-- Flat-mode document whose single entry `a` has no extension. -/
def extless : ConfigDoc := ⟨[("A", ["a"])], none, ⟨false, false⟩⟩

/-- Grouped-mode document where the stored path `a` is a proper segment
prefix of `a/b.ts`. -/
def filePrefixDoc : ConfigDoc := ⟨[("A", ["a", "a/b.ts"])], none, ⟨true, false⟩⟩

/-- A malformed document whose first context is well-formed but whose second
context's value is the number `5` (not iterable). -/
def halfBadDoc : Json :=
  .obj [("configs", .obj [("showFolders", .bool false)]),
        ("contexts", .obj [("A", .arr [.str "x.ts"]), ("B", .num 5)])]

/-- A document carrying a note for `other.ts` only. -/
def otherNoteDoc : ConfigDoc := ⟨[], some [("other.ts", "keep")], ⟨true, false⟩⟩

/-- A grouped-mode document with a note on `x/y.ts`. -/
def notedDoc : ConfigDoc := ⟨[("A", ["x/y.ts"])], some [("x/y.ts", "todo")], ⟨true, false⟩⟩

/-! ### Path lemmas -/

theorem splitSegs_ne_nil (cs : List Char) : splitSegs cs ≠ [] := by
  induction cs with
  | nil => simp [splitSegs]
  | cons c cs ih =>
    simp only [splitSegs]
    split
    · simp
    · split
      · simp
      · simp

theorem string_mk_append (a b : List Char) :
    String.mk a ++ String.mk b = String.mk (a ++ b) := by
  apply String.ext
  simp [String.data_append]

theorem splitSegs_no_slash {cs : List Char} (h : '/' ∉ cs) :
    splitSegs cs = [String.mk cs] := by
  induction cs with
  | nil => rfl
  | cons c cs ih =>
    simp only [List.mem_cons, not_or] at h
    simp only [splitSegs, if_neg (Ne.symm h.1), ih h.2, string_mk_append]
    rfl

theorem data_slash : ("/" : String).data = ['/'] := rfl

theorem mem_splitSegs_no_slash (cs : List Char) :
    ∀ s ∈ splitSegs cs, '/' ∉ s.data := by
  induction cs with
  | nil => intro s hs; simp [splitSegs] at hs; simp [hs]
  | cons c cs ih =>
    intro s hs
    simp only [splitSegs] at hs
    by_cases hc : c = '/'
    · rw [if_pos hc] at hs
      rcases List.mem_cons.mp hs with h | h
      · simp [h]
      · exact ih s h
    · rw [if_neg hc] at hs
      rcases hsplit : splitSegs cs with _ | ⟨h1, t⟩
      · exact absurd hsplit (splitSegs_ne_nil cs)
      · rw [hsplit] at hs
        rcases List.mem_cons.mp hs with h | h
        · subst h
          have h1mem : '/' ∉ h1.data := ih h1 (hsplit ▸ List.mem_cons_self _ _)
          intro hmem
          rw [string_mk_append] at hmem
          rcases (by simpa using hmem : '/' = c ∨ '/' ∈ h1.data) with hx | hx
          · exact hc hx.symm
          · exact h1mem hx
        · exact ih s (hsplit ▸ List.mem_cons_of_mem _ h)

theorem splitSegs_append (a b : List Char) :
    splitSegs (a ++ '/' :: b) = splitSegs a ++ splitSegs b := by
  induction a with
  | nil => simp [splitSegs]
  | cons c a ih =>
    by_cases hc : c = '/'
    · simp only [List.cons_append, splitSegs, if_pos hc, List.append_eq, ih]
    · rcases hsplit : splitSegs a with _ | ⟨h1, t⟩
      · exact absurd hsplit (splitSegs_ne_nil a)
      · simp only [List.cons_append, splitSegs, if_neg hc, List.append_eq, ih, hsplit]

theorem joinSegs_splitSegs (cs : List Char) : joinSegs (splitSegs cs) = String.mk cs := by
  induction cs with
  | nil => rfl
  | cons c cs ih =>
    rcases hsplit : splitSegs cs with _ | ⟨h1, t⟩
    · exact absurd hsplit (splitSegs_ne_nil cs)
    · rw [hsplit] at ih
      by_cases hc : c = '/'
      · subst hc
        simp only [splitSegs, if_pos rfl, hsplit]
        show ("" : String) ++ "/" ++ joinSegs (h1 :: t) = _
        rw [ih]
        apply String.ext
        simp [String.data_append, data_slash]
      · simp only [splitSegs, if_neg hc, hsplit]
        rcases t with _ | ⟨u, us⟩
        · show String.mk [c] ++ h1 = _
          rw [show h1 = String.mk cs from ih]
          rw [string_mk_append]
          rfl
        · show (String.mk [c] ++ h1) ++ "/" ++ joinSegs (u :: us) = _
          have ih2 : h1 ++ "/" ++ joinSegs (u :: us) = String.mk cs := ih
          have hdata := congrArg String.data ih2
          simp only [String.data_append, data_slash] at hdata
          apply String.ext
          simp only [String.data_append, data_slash]
          simp at hdata ⊢
          simp [hdata]

theorem joinSegs_splitPath (p : String) : joinSegs (splitPath p) = p := by
  have := joinSegs_splitSegs p.data
  simpa [splitPath] using this

theorem splitPath_joinSegs (segs : List String) (h1 : segs ≠ [])
    (h2 : ∀ s ∈ segs, '/' ∉ s.data) : splitPath (joinSegs segs) = segs := by
  induction segs with
  | nil => exact absurd rfl h1
  | cons s rest ih =>
    rcases rest with _ | ⟨r, rs⟩
    · show splitSegs s.data = [s]
      rw [splitSegs_no_slash (h2 s (by simp))]
    · have hdata : (joinSegs (s :: r :: rs)).data =
          s.data ++ '/' :: (joinSegs (r :: rs)).data := by
        show (s ++ "/" ++ joinSegs (r :: rs)).data = _
        simp [String.data_append, data_slash]
      show splitSegs (joinSegs (s :: r :: rs)).data = s :: r :: rs
      rw [hdata, splitSegs_append, splitSegs_no_slash (h2 s (by simp))]
      have := ih (by simp) (fun x hx => h2 x (List.mem_cons_of_mem _ hx))
      simp only [splitPath] at this
      rw [this]
      rfl

theorem splitPath_ne_nil (p : String) : splitPath p ≠ [] := splitSegs_ne_nil p.data

theorem mem_splitPath_no_slash (p : String) : ∀ s ∈ splitPath p, '/' ∉ s.data :=
  mem_splitSegs_no_slash p.data

theorem splitPath_joinPath (root : String) (parts : List String) (h1 : parts ≠ [])
    (h2 : ∀ s ∈ parts, '/' ∉ s.data) :
    splitPath (joinPath root parts) = splitPath root ++ parts := by
  rcases parts with _ | ⟨p, ps⟩
  · exact absurd rfl h1
  · have hdata : (joinPath root (p :: ps)).data =
        root.data ++ '/' :: (joinSegs (p :: ps)).data := by
      show (root ++ "/" ++ joinSegs (p :: ps)).data = _
      simp [String.data_append, data_slash]
    show splitSegs (joinPath root (p :: ps)).data = _
    rw [hdata, splitSegs_append]
    have := splitPath_joinSegs (p :: ps) (by simp) h2
    simp only [splitPath] at this
    rw [this]
    rfl

theorem getLastD_append_right {α : Type} (xs : List α) {ys : List α} (h : ys ≠ [])
    (d : α) : (xs ++ ys).getLastD d = ys.getLastD d := by
  induction xs generalizing d with
  | nil => rfl
  | cons x xs ih =>
    rcases ys with _ | ⟨y, t⟩
    · exact absurd rfl h
    · rw [List.cons_append, List.getLastD_cons, ih]
      rw [List.getLastD_cons, List.getLastD_cons]

theorem segsPre_append (xs ys : List String) : segsPre xs (xs ++ ys) = true := by
  induction xs with
  | nil => rfl
  | cons x xs ih => simp [segsPre, ih]

theorem basename_joinPath (root : String) (parts : List String) (h1 : parts ≠ [])
    (h2 : ∀ s ∈ parts, '/' ∉ s.data) :
    basename (joinPath root parts) = parts.getLastD "" := by
  rw [basename, splitPath_joinPath root parts h1 h2, getLastD_append_right _ h1]

theorem relativeOf_joinPath (root : String) (parts : List String) (h1 : parts ≠ [])
    (h2 : ∀ s ∈ parts, '/' ∉ s.data) :
    relativeOf root (joinPath root parts) = joinSegs parts := by
  rw [relativeOf, splitPath_joinPath root parts h1 h2, if_pos (segsPre_append _ _),
    List.drop_left]

theorem relativeOf_joinPath_splitPath (root fp : String) :
    relativeOf root (joinPath root (splitPath fp)) = fp := by
  rw [relativeOf_joinPath root (splitPath fp) (splitPath_ne_nil fp)
    (mem_splitPath_no_slash fp), joinSegs_splitPath]

theorem basename_joinPath_splitPath (root fp : String) :
    basename (joinPath root (splitPath fp)) = (splitPath fp).getLastD "" :=
  basename_joinPath root (splitPath fp) (splitPath_ne_nil fp) (mem_splitPath_no_slash fp)

/-! ### Association-list lemmas -/

theorem lookupField_setField_self (l : List (String × Json)) (k : String) (v : Json) :
    lookupField (setField l k v) k = some v := by
  induction l with
  | nil => simp [setField, lookupField]
  | cons kv rest ih =>
    rcases kv with ⟨k1, v1⟩
    by_cases h : k1 = k
    · simp [setField, if_pos h, lookupField]
    · simp [setField, if_neg h, lookupField, if_neg h, ih]

theorem setField_setField (l : List (String × Json)) (k : String) (v : Json) :
    setField (setField l k v) k v = setField l k v := by
  induction l with
  | nil => simp [setField]
  | cons kv rest ih =>
    rcases kv with ⟨k1, v1⟩
    by_cases h : k1 = k
    · simp [setField, if_pos h]
    · simp [setField, if_neg h, ih]

theorem mem_setField {l : List (String × Json)} {k : String} {v : Json} :
    ∀ kv ∈ setField l k v, kv = (k, v) ∨ kv ∈ l := by
  induction l with
  | nil => intro kv h; simp [setField] at h; simp [h]
  | cons kv1 rest ih =>
    intro kv h
    rcases kv1 with ⟨k1, v1⟩
    by_cases hk : k1 = k
    · rw [setField, if_pos hk] at h
      rcases List.mem_cons.mp h with h | h
      · exact Or.inl h
      · exact Or.inr (List.mem_cons_of_mem _ h)
    · rw [setField, if_neg hk] at h
      rcases List.mem_cons.mp h with h | h
      · exact Or.inr (by simp [h])
      · rcases ih kv h with h2 | h2
        · exact Or.inl h2
        · exact Or.inr (List.mem_cons_of_mem _ h2)

theorem mem_delField {l : List (String × Json)} {k : String} :
    ∀ kv ∈ delField l k, kv ∈ l := by
  induction l with
  | nil => intro kv h; simp [delField] at h
  | cons kv1 rest ih =>
    intro kv h
    rcases kv1 with ⟨k1, v1⟩
    by_cases hk : k1 = k
    · rw [delField, if_pos hk] at h
      exact List.mem_cons_of_mem _ h
    · rw [delField, if_neg hk] at h
      rcases List.mem_cons.mp h with h | h
      · simp [h]
      · exact List.mem_cons_of_mem _ (ih kv h)

theorem lookupField_isSome_mem {l : List (String × Json)} {k : String} {v : Json}
    (h : lookupField l k = some v) : k ∈ l.map Prod.fst := by
  induction l with
  | nil => simp [lookupField] at h
  | cons kv rest ih =>
    rcases kv with ⟨k1, v1⟩
    by_cases hk : k1 = k
    · simp [hk]
    · rw [lookupField, if_neg hk] at h
      simp [ih h]

theorem lookupField_delField_self {l : List (String × Json)} {k : String}
    (h : (l.map Prod.fst).Nodup) : lookupField (delField l k) k = none := by
  induction l with
  | nil => rfl
  | cons kv rest ih =>
    rcases kv with ⟨k1, v1⟩
    simp only [List.map_cons, List.nodup_cons] at h
    by_cases hk : k1 = k
    · rw [delField, if_pos hk]
      subst hk
      rcases hlook : lookupField rest k1 with _ | v2
      · rfl
      · exact absurd (lookupField_isSome_mem hlook) h.1
    · rw [delField, if_neg hk, lookupField, if_neg hk]
      exact ih h.2

theorem lookupField_map_notes (ns : List (String × String)) (k : String) :
    lookupField (ns.map (fun kv => (kv.1, Json.str kv.2))) k =
      (lookupNote ns k).map Json.str := by
  induction ns with
  | nil => rfl
  | cons kv rest ih =>
    rcases kv with ⟨k1, v1⟩
    by_cases hk : k1 = k
    · simp [lookupField, lookupNote, if_pos hk]
    · simp [lookupField, lookupNote, if_neg hk, ih]

theorem delField_map_notes (ns : List (String × String)) (k : String) :
    delField (ns.map (fun kv => (kv.1, Json.str kv.2))) k =
      (delNote ns k).map (fun kv => (kv.1, Json.str kv.2)) := by
  induction ns with
  | nil => rfl
  | cons kv rest ih =>
    rcases kv with ⟨k1, v1⟩
    by_cases hk : k1 = k
    · simp [delField, delNote, if_pos hk]
    · simp [delField, delNote, if_neg hk, ih]

theorem lookupField_map_of_nodup {α : Type} (g : String × α → Json)
    (cs : List (String × α)) (hnd : (cs.map Prod.fst).Nodup) :
    ∀ kv ∈ cs, lookupField (cs.map (fun x => (x.1, g x))) kv.1 = some (g kv) := by
  induction cs with
  | nil => intro kv h; simp at h
  | cons kv1 rest ih =>
    intro kv h
    simp only [List.map_cons, List.nodup_cons] at hnd
    rcases List.mem_cons.mp h with h | h
    · subst h
      simp [lookupField]
    · have hne : kv1.1 ≠ kv.1 := by
        intro he
        exact hnd.1 (he ▸ List.mem_map_of_mem Prod.fst h)
      simp only [List.map_cons, lookupField, if_neg hne]
      exact ih hnd.2 kv h

/-! ### Node helper lemmas -/

theorem Node.label_withChildren (n : Node) (cs : List Node) :
    (n.withChildren cs).label = n.label := by
  cases n <;> rfl

theorem Node.children_withChildren (n : Node) (cs : List Node) :
    (n.withChildren cs).children = cs := by
  cases n <;> rfl

theorem mkFileCore_children (root : String) (sf : Bool) (nv : Option Json)
    (fp ctx : String) : (mkFileCore root sf nv fp ctx).children = [] := rfl

theorem mkFileCore_label (root : String) (sf : Bool) (nv : Option Json)
    (fp ctx : String) :
    (mkFileCore root sf nv fp ctx).label = (splitPath fp).getLastD "" := by
  show basename (joinPath root (splitPath fp)) = _
  exact basename_joinPath_splitPath root fp

/-! ### Label-distinctness machinery -/

theorem nodupTree_nil : NodupTree [] := NodupTree.mk [] (by simp) (by simp)

theorem nodupTree_labels {ns : List Node} (h : NodupTree ns) :
    (ns.map Node.label).Nodup := by
  cases h with
  | mk _ h1 _ => exact h1

theorem nodupTree_mem {ns : List Node} (h : NodupTree ns) :
    ∀ n ∈ ns, NodupTree n.children := by
  cases h with
  | mk _ _ h2 => exact h2

theorem labels_descend (p : String) (g : List Node → List Node) (level : List Node) :
    (descend p g level).map Node.label = level.map Node.label := by
  induction level with
  | nil => rfl
  | cons n ns ih =>
    by_cases h : n.label = p
    · simp [descend, if_pos h, Node.label_withChildren]
    · simp [descend, if_neg h, ih]

theorem descend_nodup (p : String) (g : List Node → List Node)
    (hg : ∀ cs, NodupTree cs → NodupTree (g cs)) :
    ∀ level, NodupTree level → NodupTree (descend p g level)
  | [], hl => hl
  | n :: ns, hl => by
    have hlab := nodupTree_labels hl
    have hmem := nodupTree_mem hl
    simp only [List.map_cons, List.nodup_cons] at hlab
    by_cases h : n.label = p
    · rw [descend, if_pos h]
      refine NodupTree.mk _ ?_ ?_
      · simp only [List.map_cons, List.nodup_cons, Node.label_withChildren]
        exact hlab
      · intro m hm
        rcases List.mem_cons.mp hm with hm | hm
        · subst hm
          rw [Node.children_withChildren]
          exact hg _ (hmem n (List.mem_cons_self _ _))
        · exact hmem m (List.mem_cons_of_mem _ hm)
    · rw [descend, if_neg h]
      have tail := descend_nodup p g hg ns
        (NodupTree.mk ns hlab.2 (fun m hm => hmem m (List.mem_cons_of_mem _ hm)))
      refine NodupTree.mk _ ?_ ?_
      · simp only [List.map_cons, List.nodup_cons]
        refine ⟨?_, nodupTree_labels tail⟩
        rw [labels_descend]
        exact hlab.1
      · intro m hm
        rcases List.mem_cons.mp hm with hm | hm
        · subst hm
          exact hmem _ (List.mem_cons_self _ _)
        · exact nodupTree_mem tail m hm

theorem getLast?_eq_getLastD {α : Type} {l : List α} (h : l ≠ []) (d : α) :
    l.getLast? = some (l.getLastD d) := by
  rcases hx : l.getLast? with _ | x
  · rw [List.getLast?_eq_none_iff] at hx
    exact absurd hx h
  · rw [List.getLastD_eq_getLast?, hx]
    rfl

theorem insertGrouped_nodup (f : Node) (hf : NodupTree f.children) :
    ∀ (parts : List String) (level : List Node), NodupTree level →
      parts.getLast? = some f.label → NodupTree (insertGrouped f parts level)
  | [], level, hl, _ => hl
  | [p], level, hl, hlast => by
    have hp : f.label = p := by
      simp only [List.getLast?_singleton, Option.some.injEq] at hlast
      exact hlast.symm
    rcases hb : level.any (fun n => n.label = p) with _ | _
    · simp only [insertGrouped, hb, Bool.false_eq_true, if_false]
      have hfresh : ∀ n ∈ level, ¬(n.label = p) := by
        simpa using List.any_eq_false.mp hb
      refine NodupTree.mk _ ?_ ?_
      · simp only [List.map_append, List.map_cons, List.map_nil]
        rw [List.nodup_append]
        refine ⟨nodupTree_labels hl, by simp, ?_⟩
        intro x hx hx2
        rcases List.mem_map.mp hx with ⟨n, hn, hlx⟩
        apply hfresh n hn
        rw [hlx, List.mem_singleton.mp hx2]
        exact hp
      · intro m hm
        rcases List.mem_append.mp hm with hm | hm
        · exact nodupTree_mem hl m hm
        · rw [List.mem_singleton.mp hm]
          exact hf
    · simp only [insertGrouped, hb, if_true]
      exact hl
  | p :: q :: rest, level, hl, hlast => by
    have hlast2 : (q :: rest).getLast? = some f.label := by
      rw [← @List.getLast?_cons_cons _ p q rest]
      exact hlast
    rcases hb : level.any (fun n => n.label = p) with _ | _
    · simp only [insertGrouped, hb, Bool.false_eq_true, if_false]
      have hfresh : ∀ n ∈ level, ¬(n.label = p) := by
        simpa using List.any_eq_false.mp hb
      refine NodupTree.mk _ ?_ ?_
      · simp only [List.map_append, List.map_cons, List.map_nil]
        rw [List.nodup_append]
        refine ⟨nodupTree_labels hl, by simp, ?_⟩
        intro x hx hx2
        rcases List.mem_map.mp hx with ⟨n, hn, hlx⟩
        apply hfresh n hn
        rw [hlx, List.mem_singleton.mp hx2]
        rfl
      · intro m hm
        rcases List.mem_append.mp hm with hm | hm
        · exact nodupTree_mem hl m hm
        · rw [List.mem_singleton.mp hm]
          show NodupTree (insertGrouped f (q :: rest) [])
          exact insertGrouped_nodup f hf (q :: rest) [] nodupTree_nil hlast2
    · simp only [insertGrouped, hb, if_true]
      exact descend_nodup p (insertGrouped f (q :: rest))
        (fun cs hcs => insertGrouped_nodup f hf (q :: rest) cs hcs hlast2) level hl

/-! ### Subtree-membership machinery -/

theorem inTree_nil {n : Node} : ¬ InTree n [] := by
  intro h
  cases h with
  | here h => simp at h
  | under m hm _ => simp at hm

theorem inTree_of_tail {k n : Node} {ns : List Node} (h : InTree k ns) :
    InTree k (n :: ns) := by
  cases h with
  | here h => exact .here (List.mem_cons_of_mem _ h)
  | under m hm hc => exact .under m (List.mem_cons_of_mem _ hm) hc

theorem inTree_cons {k n : Node} {ns : List Node} (h : InTree k (n :: ns)) :
    k = n ∨ InTree k n.children ∨ InTree k ns := by
  cases h with
  | here h =>
    rcases List.mem_cons.mp h with h | h
    · exact Or.inl h
    · exact Or.inr (Or.inr (.here h))
  | under m hm hc =>
    rcases List.mem_cons.mp hm with h | h
    · subst h
      exact Or.inr (Or.inl hc)
    · exact Or.inr (Or.inr (.under m h hc))

theorem inTree_append {n : Node} {a b : List Node} :
    InTree n (a ++ b) ↔ InTree n a ∨ InTree n b := by
  constructor
  · intro h
    cases h with
    | here h =>
      rcases List.mem_append.mp h with h | h
      · exact Or.inl (.here h)
      · exact Or.inr (.here h)
    | under m hm hc =>
      rcases List.mem_append.mp hm with h | h
      · exact Or.inl (.under m h hc)
      · exact Or.inr (.under m h hc)
  · intro h
    rcases h with h | h
    · cases h with
      | here h => exact .here (List.mem_append_left _ h)
      | under m hm hc => exact .under m (List.mem_append_left _ hm) hc
    · cases h with
      | here h => exact .here (List.mem_append_right _ h)
      | under m hm hc => exact .under m (List.mem_append_right _ hm) hc

theorem inTree_singleton {n m : Node} (h : InTree n [m]) :
    n = m ∨ InTree n m.children := by
  cases h with
  | here h => exact Or.inl (List.mem_singleton.mp h)
  | under m2 hm hc =>
    rw [List.mem_singleton.mp hm] at hc
    exact Or.inr hc

theorem descend_inv (Q : Node → Prop)
    (hwith : ∀ m cs, Q m → Q (m.withChildren cs))
    (p : String) (g : List Node → List Node)
    (hg : ∀ cs, (∀ k, InTree k cs → Q k) → ∀ k, InTree k (g cs) → Q k) :
    ∀ level, (∀ k, InTree k level → Q k) → ∀ k, InTree k (descend p g level) → Q k
  | [], _, _, hk => absurd hk inTree_nil
  | n :: ns, hl, k, hk => by
    have hln : ∀ k2, InTree k2 ns → Q k2 := fun k2 h2 => hl k2 (inTree_of_tail h2)
    by_cases h : n.label = p
    · rw [descend, if_pos h] at hk
      rcases inTree_cons hk with hk | hk | hk
      · subst hk
        exact hwith n _ (hl n (.here (List.mem_cons_self _ _)))
      · rw [Node.children_withChildren] at hk
        exact hg n.children
          (fun k2 hk2 => hl k2 (.under n (List.mem_cons_self _ _) hk2)) k hk
      · exact hln k hk
    · rw [descend, if_neg h] at hk
      rcases inTree_cons hk with hk | hk | hk
      · subst hk
        exact hl _ (.here (List.mem_cons_self _ _))
      · exact hl k (.under n (List.mem_cons_self _ _) hk)
      · exact descend_inv Q hwith p g hg ns hln k hk

theorem insertGrouped_inv (Q : Node → Prop)
    (hwith : ∀ m cs, Q m → Q (m.withChildren cs))
    (hfold : ∀ p cs, Q (Node.Folder p cs))
    (f : Node) (hf : Q f) (hfch : f.children = []) :
    ∀ (parts : List String) (level : List Node),
      (∀ k, InTree k level → Q k) → ∀ k, InTree k (insertGrouped f parts level) → Q k
  | [], _, hl, k, hk => hl k hk
  | [p], level, hl, k, hk => by
    rcases hb : level.any (fun n => n.label = p) with _ | _
    · rw [insertGrouped] at hk
      simp only [hb, Bool.false_eq_true, if_false] at hk
      rcases inTree_append.mp hk with hk | hk
      · exact hl k hk
      · rcases inTree_singleton hk with hk | hk
        · subst hk
          exact hf
        · rw [hfch] at hk
          exact absurd hk inTree_nil
    · rw [insertGrouped] at hk
      simp only [hb, if_true] at hk
      exact hl k hk
  | p :: q :: rest, level, hl, k, hk => by
    rcases hb : level.any (fun n => n.label = p) with _ | _
    · rw [insertGrouped] at hk
      simp only [hb, Bool.false_eq_true, if_false] at hk
      rcases inTree_append.mp hk with hk | hk
      · exact hl k hk
      · rcases inTree_singleton hk with hk | hk
        · subst hk
          exact hfold _ _
        · simp only [Node.children] at hk
          exact insertGrouped_inv Q hwith hfold f hf hfch (q :: rest) []
            (fun k2 hk2 => absurd hk2 inTree_nil) k hk
    · rw [insertGrouped] at hk
      simp only [hb, if_true] at hk
      exact descend_inv Q hwith p (insertGrouped f (q :: rest))
        (fun cs hcs => insertGrouped_inv Q hwith hfold f hf hfch (q :: rest) cs hcs)
        level hl k hk

/-! ### The File-description invariant -/

theorem fileOk_withChildren (root : String) (sf : Bool) (nv : Option Json)
    (m : Node) (cs : List Node) (h : FileOk root sf nv m) :
    FileOk root sf nv (m.withChildren cs) := by
  intro l fp i d t ch he
  cases m with
  | Section l2 cs2 => exact absurd he (by simp [Node.withChildren])
  | Folder l2 cs2 => exact absurd he (by simp [Node.withChildren])
  | File l2 fp2 i2 d2 t2 ch2 =>
    simp only [Node.withChildren, Node.File.injEq] at he
    obtain ⟨h1, h2, h3, h4, h5, h6⟩ := he
    subst h1
    subst h2
    subst h3
    subst h4
    subst h5
    exact h _ _ _ _ _ ch2 rfl

theorem fileOk_section (root : String) (sf : Bool) (nv : Option Json)
    (l : String) (cs : List Node) : FileOk root sf nv (Node.Section l cs) := by
  intro l2 fp i d t ch he
  exact absurd he (by simp)

theorem fileOk_folder (root : String) (sf : Bool) (nv : Option Json)
    (l : String) (cs : List Node) : FileOk root sf nv (Node.Folder l cs) := by
  intro l2 fp i d t ch he
  exact absurd he (by simp)

theorem fileOk_mkFileCore (root : String) (sf : Bool) (nv : Option Json)
    (fp ctx : String) : FileOk root sf nv (mkFileCore root sf nv fp ctx) := by
  intro l2 fp2 i d t ch he
  injection he with h1 h2 h3 h4 h5 h6
  subst h2
  subst h4
  rfl

/-! ### Plumbing lemmas for the `Except` monad and the build loops -/

theorem except_bind_ok {ε α β : Type} (a : α) (f : α → Except ε β) :
    (Except.ok a : Except ε α) >>= f = f a := rfl

theorem except_bind_error {ε α β : Type} (e : ε) (f : α → Except ε β) :
    (Except.error e : Except ε α) >>= f = .error e := rfl

theorem addToTree_eval (root : String) (cfg : Json) (sf : Bool)
    (hsf : showFoldersOf cfg = .ok sf) (level : List Node) (fp ctx : String) :
    addToTree root cfg level fp ctx = .ok
      (if sf then
        insertGrouped (mkFileCore root sf (getPropND cfg "notes") fp ctx) (splitPath fp) level
       else level ++ [mkFileCore root sf (getPropND cfg "notes") fp ctx]) := by
  rw [addToTree, hsf, except_bind_ok]
  cases sf
  · rfl
  · rfl

theorem buildSection_inv (root : String) (cfg : Json) (sf : Bool) (ctx : String)
    (hsf : showFoldersOf cfg = .ok sf)
    (Q : Node → Prop)
    (hwith : ∀ m cs, Q m → Q (m.withChildren cs))
    (hfold : ∀ p cs, Q (Node.Folder p cs))
    (hfile : ∀ fp, Q (mkFileCore root sf (getPropND cfg "notes") fp ctx)) :
    ∀ (vs : List Json) (acc out : List Node),
      buildSection root cfg sf ctx vs acc = .ok out →
      (∀ k, InTree k acc → Q k) → ∀ k, InTree k out → Q k
  | [], acc, out, heq, hacc => by
    rw [buildSection] at heq
    cases heq
    exact hacc
  | .null :: vs, acc, out, heq, hacc => by simp only [buildSection] at heq; cases heq
  | .bool b :: vs, acc, out, heq, hacc => by simp only [buildSection] at heq; cases heq
  | .num n :: vs, acc, out, heq, hacc => by simp only [buildSection] at heq; cases heq
  | .arr xs :: vs, acc, out, heq, hacc => by simp only [buildSection] at heq; cases heq
  | .obj fs :: vs, acc, out, heq, hacc => by simp only [buildSection] at heq; cases heq
  | .str fp :: vs, acc, out, heq, hacc => by
    rw [buildSection] at heq
    by_cases hc : (sf || decide (extname fp ≠ "")) = true
    · rw [if_pos hc, addToTree_eval root cfg sf hsf acc fp ctx] at heq
      refine buildSection_inv root cfg sf ctx hsf Q hwith hfold hfile vs _ out heq ?_
      cases sf with
      | true =>
        exact insertGrouped_inv Q hwith hfold _ (hfile fp)
          (mkFileCore_children root true (getPropND cfg "notes") fp ctx)
          (splitPath fp) acc hacc
      | false =>
        intro k hk
        rcases inTree_append.mp hk with hk | hk
        · exact hacc k hk
        · rcases inTree_singleton hk with hk | hk
          · subst hk
            exact hfile fp
          · rw [mkFileCore_children] at hk
            exact absurd hk inTree_nil
    · rw [if_neg hc] at heq
      exact buildSection_inv root cfg sf ctx hsf Q hwith hfold hfile vs acc out heq hacc

theorem sectionItems_inv (root : String) (cfg : Json) (sf : Bool) (kk : String)
    (hsf : showFoldersOf cfg = .ok sf)
    (Q : Node → Prop)
    (hwith : ∀ m cs, Q m → Q (m.withChildren cs))
    (hfold : ∀ p cs, Q (Node.Folder p cs))
    (hfile : ∀ fp, Q (mkFileCore root sf (getPropND cfg "notes") fp kk))
    (items : List Node)
    (hdo : (do
        let cv ← jsAccess (some cfg) "contexts"
        let lv ← jsAccess cv kk
        let vs ← forOfVals lv
        buildSection root cfg sf kk vs []) = .ok items) :
    ∀ k, InTree k items → Q k := by
  rcases h1 : jsAccess (some cfg) "contexts" with e1 | cv
  · rw [h1, except_bind_error] at hdo
    cases hdo
  · rw [h1, except_bind_ok] at hdo
    rcases h2 : jsAccess cv kk with e2 | lv
    · rw [h2, except_bind_error] at hdo
      cases hdo
    · rw [h2, except_bind_ok] at hdo
      rcases h3 : forOfVals lv with e3 | vs
      · rw [h3, except_bind_error] at hdo
        cases hdo
      · rw [h3, except_bind_ok] at hdo
        exact buildSection_inv root cfg sf kk hsf Q hwith hfold hfile vs [] items hdo
          (fun k hk => absurd hk inTree_nil)

theorem sectionsLoop_inv (root : String) (cfg : Json) (sf : Bool)
    (hsf : showFoldersOf cfg = .ok sf)
    (Q : Node → Prop)
    (hwith : ∀ m cs, Q m → Q (m.withChildren cs))
    (hfold : ∀ p cs, Q (Node.Folder p cs))
    (hfile : ∀ fp ctx, Q (mkFileCore root sf (getPropND cfg "notes") fp ctx))
    (hsec : ∀ l cs, (∀ k, InTree k cs → Q k) → Q (Node.Section l cs)) :
    ∀ (ks : List String) (acc : List Node), (∀ k, InTree k acc → Q k) →
      ∀ k, InTree k (sectionsLoop root cfg sf ks acc).1 → Q k
  | [], acc, hacc, k, hk => hacc k hk
  | kk :: ks, acc, hacc, k, hk => by
    rw [sectionsLoop] at hk
    rcases hdo : (do
        let cv ← jsAccess (some cfg) "contexts"
        let lv ← jsAccess cv kk
        let vs ← forOfVals lv
        buildSection root cfg sf kk vs []) with e | items
    · rw [hdo] at hk
      exact hacc k hk
    · rw [hdo] at hk
      have hitems := sectionItems_inv root cfg sf kk hsf Q hwith hfold (hfile · kk) items hdo
      refine sectionsLoop_inv root cfg sf hsf Q hwith hfold hfile hsec ks
        (acc ++ [Node.Section kk items]) ?_ k hk
      intro k2 hk2
      rcases inTree_append.mp hk2 with h2 | h2
      · exact hacc k2 h2
      · rcases inTree_singleton h2 with h2 | h2
        · subst h2
          exact hsec kk items hitems
        · simp only [Node.children] at h2
          exact hitems k2 h2

theorem handleLoadConfig_inv (root : String) (cfg : Json) (sf : Bool)
    (hsf : showFoldersOf cfg = .ok sf)
    (Q : Node → Prop)
    (hwith : ∀ m cs, Q m → Q (m.withChildren cs))
    (hfold : ∀ p cs, Q (Node.Folder p cs))
    (hfile : ∀ fp ctx, Q (mkFileCore root sf (getPropND cfg "notes") fp ctx))
    (hsec : ∀ l cs, (∀ k, InTree k cs → Q k) → Q (Node.Section l cs)) :
    ∀ k, InTree k (handleLoadConfig root cfg).1 → Q k := by
  intro k hk
  rw [handleLoadConfig, hsf] at hk
  exact sectionsLoop_inv root cfg sf hsf Q hwith hfold hfile hsec _ [] 
    (fun k2 hk2 => absurd hk2 inTree_nil) k hk

theorem addToTree_grouped (root : String) (cfg : Json)
    (hsf : showFoldersOf cfg = .ok true) (level : List Node) (fp ctx : String) :
    addToTree root cfg level fp ctx = .ok
      (insertGrouped (mkFileCore root true (getPropND cfg "notes") fp ctx)
        (splitPath fp) level) := by
  rw [addToTree, hsf, except_bind_ok]
  rfl

theorem addToTree_flat (root : String) (cfg : Json)
    (hsf : showFoldersOf cfg = .ok false) (level : List Node) (fp ctx : String) :
    addToTree root cfg level fp ctx = .ok
      (level ++ [mkFileCore root false (getPropND cfg "notes") fp ctx]) := by
  rw [addToTree, hsf, except_bind_ok]
  rfl

theorem nodupTree_mkFileCore_children (root : String) (sf : Bool) (nv : Option Json)
    (fp ctx : String) : NodupTree (mkFileCore root sf nv fp ctx).children := by
  rw [mkFileCore_children]
  exact nodupTree_nil

theorem getLast?_splitPath_label (root : String) (sf : Bool) (nv : Option Json)
    (fp ctx : String) :
    (splitPath fp).getLast? = some (mkFileCore root sf nv fp ctx).label := by
  rw [mkFileCore_label]
  exact getLast?_eq_getLastD (splitPath_ne_nil fp) ""

theorem buildSection_nodup (root : String) (cfg : Json) (ctx : String)
    (hsf : showFoldersOf cfg = .ok true) :
    ∀ (vs : List Json) (acc out : List Node),
      buildSection root cfg true ctx vs acc = .ok out → NodupTree acc → NodupTree out
  | [], acc, out, heq, hacc => by
    rw [buildSection] at heq
    cases heq
    exact hacc
  | .null :: vs, acc, out, heq, hacc => by simp only [buildSection] at heq; cases heq
  | .bool b :: vs, acc, out, heq, hacc => by simp only [buildSection] at heq; cases heq
  | .num n :: vs, acc, out, heq, hacc => by simp only [buildSection] at heq; cases heq
  | .arr xs :: vs, acc, out, heq, hacc => by simp only [buildSection] at heq; cases heq
  | .obj fs :: vs, acc, out, heq, hacc => by simp only [buildSection] at heq; cases heq
  | .str fp :: vs, acc, out, heq, hacc => by
    rw [buildSection] at heq
    rw [if_pos (by simp), addToTree_grouped root cfg hsf acc fp ctx] at heq
    refine buildSection_nodup root cfg ctx hsf vs _ out heq ?_
    exact insertGrouped_nodup _ (nodupTree_mkFileCore_children root true _ fp ctx)
      (splitPath fp) acc hacc (getLast?_splitPath_label root true _ fp ctx)

theorem sectionItems_nodup (root : String) (cfg : Json) (kk : String)
    (hsf : showFoldersOf cfg = .ok true) (items : List Node)
    (hdo : (do
        let cv ← jsAccess (some cfg) "contexts"
        let lv ← jsAccess cv kk
        let vs ← forOfVals lv
        buildSection root cfg true kk vs []) = .ok items) : NodupTree items := by
  rcases h1 : jsAccess (some cfg) "contexts" with e1 | cv
  · rw [h1, except_bind_error] at hdo
    cases hdo
  · rw [h1, except_bind_ok] at hdo
    rcases h2 : jsAccess cv kk with e2 | lv
    · rw [h2, except_bind_error] at hdo
      cases hdo
    · rw [h2, except_bind_ok] at hdo
      rcases h3 : forOfVals lv with e3 | vs
      · rw [h3, except_bind_error] at hdo
        cases hdo
      · rw [h3, except_bind_ok] at hdo
        exact buildSection_nodup root cfg kk hsf vs [] items hdo nodupTree_nil

theorem sectionsLoop_nodup (root : String) (cfg : Json)
    (hsf : showFoldersOf cfg = .ok true) :
    ∀ (ks : List String) (acc : List Node), (∀ n ∈ acc, NodupTree n.children) →
      ∀ n ∈ (sectionsLoop root cfg true ks acc).1, NodupTree n.children
  | [], acc, hacc, n, hn => hacc n hn
  | kk :: ks, acc, hacc, n, hn => by
    rw [sectionsLoop] at hn
    rcases hdo : (do
        let cv ← jsAccess (some cfg) "contexts"
        let lv ← jsAccess cv kk
        let vs ← forOfVals lv
        buildSection root cfg true kk vs []) with e | items
    · rw [hdo] at hn
      exact hacc n hn
    · rw [hdo] at hn
      refine sectionsLoop_nodup root cfg hsf ks (acc ++ [Node.Section kk items]) ?_ n hn
      intro m hm
      rcases List.mem_append.mp hm with hm | hm
      · exact hacc m hm
      · rw [List.mem_singleton.mp hm]
        show NodupTree items
        exact sectionItems_nodup root cfg kk hsf items hdo

theorem handleLoadConfig_nodup (root : String) (cfg : Json)
    (hsf : showFoldersOf cfg = .ok true) :
    ∀ n ∈ (handleLoadConfig root cfg).1, NodupTree n.children := by
  intro n hn
  rw [handleLoadConfig, hsf] at hn
  exact sectionsLoop_nodup root cfg hsf _ [] (by simp) n hn

/-! ### Evaluation of the loader on well-typed documents -/

theorem showFoldersOf_toJson (d : ConfigDoc) :
    showFoldersOf d.toJson = .ok d.configs.showFolders := by
  rcases d with ⟨cs, ns, cfgs⟩
  cases ns
  · rfl
  · rfl

theorem getPropND_toJson_notes (d : ConfigDoc) :
    getPropND d.toJson "notes" = d.notesVal := by
  rcases d with ⟨cs, ns, cfgs⟩
  cases ns
  · rfl
  · rfl

theorem jsAccess_toJson_contexts (d : ConfigDoc) :
    jsAccess (some d.toJson) "contexts" = .ok (some (contextsJson d.contexts)) := by
  rcases d with ⟨cs, ns, cfgs⟩
  cases ns
  · rfl
  · rfl

theorem getPropND_toJson_contexts (d : ConfigDoc) :
    getPropND d.toJson "contexts" = some (contextsJson d.contexts) := by
  rcases d with ⟨cs, ns, cfgs⟩
  cases ns
  · rfl
  · rfl

theorem forInKeys_contextsJson (cs : List (String × List String)) :
    forInKeys (some (contextsJson cs)) = cs.map Prod.fst := by
  simp [forInKeys, contextsJson]

theorem buildSection_flat (root : String) (cfg : Json) (ctx : String)
    (hsf : showFoldersOf cfg = .ok false) :
    ∀ (ps : List String) (acc : List Node),
      buildSection root cfg false ctx (ps.map Json.str) acc = .ok
        (acc ++ (ps.filter (fun p => extname p ≠ "")).map
          (fun p => mkFileCore root false (getPropND cfg "notes") p ctx))
  | [], acc => by simp [buildSection]
  | p :: ps, acc => by
    rw [List.map_cons, buildSection]
    by_cases h : extname p = ""
    · rw [if_neg (by simp [h])]
      rw [buildSection_flat root cfg ctx hsf ps acc]
      rw [List.filter_cons]
      simp [h]
    · rw [if_pos (by simp [h]), addToTree_flat root cfg hsf acc p ctx]
      show buildSection root cfg false ctx (ps.map Json.str)
          (acc ++ [mkFileCore root false (getPropND cfg "notes") p ctx]) = _
      rw [buildSection_flat root cfg ctx hsf ps _]
      rw [List.filter_cons]
      simp [h, List.append_assoc]

theorem sectionsLoop_flat (root : String) (cfg : Json)
    (hsf : showFoldersOf cfg = .ok false)
    (ctxFields : List (String × Json))
    (hctx : jsAccess (some cfg) "contexts" = .ok (some (.obj ctxFields))) :
    ∀ (cs : List (String × List String)) (acc : List Node),
      (∀ kv ∈ cs, lookupField ctxFields kv.1 = some (.arr (kv.2.map Json.str))) →
      sectionsLoop root cfg false (cs.map Prod.fst) acc =
        (acc ++ cs.map (fun c => Node.Section c.1
          ((c.2.filter (fun p => extname p ≠ "")).map
            (fun p => mkFileCore root false (getPropND cfg "notes") p c.1))), none)
  | [], acc, _ => by simp [sectionsLoop]
  | c :: cs, acc, hlook => by
    rw [List.map_cons, sectionsLoop]
    have h1 : (do
        let cv ← jsAccess (some cfg) "contexts"
        let lv ← jsAccess cv c.1
        let vs ← forOfVals lv
        buildSection root cfg false c.1 vs []) = .ok
          ((c.2.filter (fun p => extname p ≠ "")).map
            (fun p => mkFileCore root false (getPropND cfg "notes") p c.1)) := by
      rw [hctx, except_bind_ok]
      have h2 : jsAccess (some (.obj ctxFields)) c.1 =
          .ok (some (.arr (c.2.map Json.str))) := by
        show Except.ok (lookupField ctxFields c.1) = _
        rw [hlook c (List.mem_cons_self _ _)]
      rw [h2, except_bind_ok]
      have h3 : forOfVals (some (.arr (c.2.map Json.str))) = .ok (c.2.map Json.str) := rfl
      rw [h3, except_bind_ok]
      exact buildSection_flat root cfg c.1 hsf c.2 []
    rw [h1]
    show sectionsLoop root cfg false (cs.map Prod.fst)
        (acc ++ [Node.Section c.1 ((c.2.filter (fun p => extname p ≠ "")).map
          (fun p => mkFileCore root false (getPropND cfg "notes") p c.1))]) = _
    rw [sectionsLoop_flat root cfg hsf ctxFields hctx cs _
      (fun kv hkv => hlook kv (List.mem_cons_of_mem _ hkv))]
    simp [List.append_assoc]

/-! ### Glyph-condition translation for well-typed documents -/

theorem truthyO_noteValAt (d : ConfigDoc) (rel : String) :
    truthyO (noteValAt d.notesVal rel) = noteNonempty d rel := by
  rcases d with ⟨cs, ns, cfgs⟩
  cases ns with
  | none => rfl
  | some ns =>
    show truthyO (if truthy (notesJson ns) then getPropND (notesJson ns) rel else none) = _
    rw [if_pos (by rfl)]
    show truthyO (lookupField (ns.map (fun kv => (kv.1, Json.str kv.2))) rel) = _
    rw [lookupField_map_notes]
    cases h : lookupNote ns rel
    · simp [noteNonempty, h, truthyO]
    · simp [noteNonempty, h, truthyO, truthy]

/-! ### Claim theorems for the tree construction -/

/-- C1 counterexample: with `showFolders = false` the document whose single
context `A` stores the one (extension-less) path `a` materializes a Section
with no File node at all, while the context has one path entry — so the tree
does not contain "exactly one File node per path entry". -/
theorem flatExtensionlessSkipped :
    handleLoadConfig "root" extless.toJson = ([Node.Section "A" []], none) ∧
    (extless.contexts.map (fun c => c.2.length)).sum = 1 := ⟨rfl, rfl⟩

/-- C1 (amended): for every well-typed document with `showFolders = false`
(context names distinct, as `JSON.parse` guarantees), the tree has exactly one
Section per context key, whose children are exactly one File node per path
entry whose `path.extname` is non-empty, in input order, with no Folder
nodes; entries with an empty extension (no dot in the final segment) are
skipped. -/
theorem flatModeBuild (root : String) (d : ConfigDoc)
    (hflat : d.configs.showFolders = false)
    (hnd : (d.contexts.map Prod.fst).Nodup) :
    handleLoadConfig root d.toJson =
      (d.contexts.map (fun c => Node.Section c.1
        ((c.2.filter (fun p => extname p ≠ "")).map
          (fun p => mkFileCore root false d.notesVal p c.1))), none) := by
  have hsf : showFoldersOf d.toJson = .ok false := by
    rw [showFoldersOf_toJson, hflat]
  rw [handleLoadConfig, hsf]
  show sectionsLoop root d.toJson false (forInKeys (getPropND d.toJson "contexts")) [] = _
  rw [getPropND_toJson_contexts, forInKeys_contextsJson]
  rw [sectionsLoop_flat root d.toJson hsf
    (d.contexts.map (fun kv => (kv.1, Json.arr (kv.2.map Json.str))))
    (show jsAccess (some d.toJson) "contexts" = .ok (some (.obj
        (d.contexts.map (fun kv => (kv.1, Json.arr (kv.2.map Json.str)))))) from
      jsAccess_toJson_contexts d) d.contexts []
    (lookupField_map_of_nodup (fun x => Json.arr (x.2.map Json.str)) d.contexts hnd)]
  simp [getPropND_toJson_notes]

/-- C1 witness instance of the amended theorem. -/
theorem flatModeBuild_witness :
    handleLoadConfig "r" (ConfigDoc.toJson ⟨[("A", ["x/y.ts", "b"])], none, ⟨false, false⟩⟩) =
      (([("A", ["x/y.ts", "b"])] : List (String × List String)).map (fun c =>
        Node.Section c.1 ((c.2.filter (fun p => extname p ≠ "")).map (fun p =>
          mkFileCore "r" false
            (ConfigDoc.notesVal ⟨[("A", ["x/y.ts", "b"])], none, ⟨false, false⟩⟩) p c.1))),
       none) :=
  flatModeBuild "r" ⟨[("A", ["x/y.ts", "b"])], none, ⟨false, false⟩⟩ rfl (by decide)

/-- C2: in grouped mode every level of every section's subtree carries
pairwise-distinct labels (so two paths sharing a prefix reuse one Folder node
per shared segment, never duplicating a label under the same parent), and the
scenario `contexts = A ↦ [x/y.ts, x/z.ts]` with `showFolders = true` yields
Section `A` containing the single Folder `x` with File `y.ts` then File
`z.ts`. -/
theorem sharedPrefixFolders :
    (∀ (root : String) (cfg : Json), showFoldersOf cfg = .ok true →
      ∀ n ∈ (handleLoadConfig root cfg).1, NodupTree n.children) ∧
    handleLoadConfig "root" sharedFolderDoc.toJson =
      ([Node.Section "A" [Node.Folder "x"
        [Node.File "y.ts" "root/x/y.ts" "root/x/y.tsA" none none [],
         Node.File "z.ts" "root/x/z.ts" "root/x/z.tsA" none none []]]], none) :=
  ⟨fun root cfg hsf => handleLoadConfig_nodup root cfg hsf, rfl⟩

/-- C2 witness instance of the distinct-labels invariant. -/
theorem sharedPrefixFolders_witness :
    NodupTree (Node.Section "A" [Node.Folder "x"
      [Node.File "y.ts" "root/x/y.ts" "root/x/y.tsA" none none [],
       Node.File "z.ts" "root/x/z.ts" "root/x/z.tsA" none none []]]).children :=
  sharedPrefixFolders.1 "root" sharedFolderDoc.toJson rfl
    (Node.Section "A" [Node.Folder "x"
      [Node.File "y.ts" "root/x/y.ts" "root/x/y.tsA" none none [],
       Node.File "z.ts" "root/x/z.ts" "root/x/z.tsA" none none []]])
    (List.mem_singleton.mpr rfl)

/-- C9: with `showFolders = true`, reuse during insertion matches children by
label only, ignoring node kind: storing `a` and then `a/b.ts` in context `A`
appends File `b.ts` as a child of the File node labelled `a`, so File nodes
are not guaranteed to be leaves. -/
theorem filePrefixChildren :
    handleLoadConfig "root" filePrefixDoc.toJson =
      ([Node.Section "A" [Node.File "a" "root/a" "root/aA" none none
        [Node.File "b.ts" "root/a/b.ts" "root/a/b.tsA" none none []]]], none) := rfl

/-- C7: when the configuration file is absent, loading warns, produces an
empty tree, and performs no filesystem write on this read path. -/
theorem absentFileWarns (root : String) :
    loadConfig root .absent =
      { items := [], warnings := [warnAbsentMsg], errors := [], wrote := false } := rfl

/-- C6: every File node anywhere in the materialized tree of a well-typed
document carries the description the `File` constructor assigns: in flat mode
the second-to-last segment of its absolute path (its immediate parent folder
name, unconditionally); in grouped mode the note glyph exactly when a
non-empty note exists for the file's relative path, and no description
otherwise. -/
theorem fileDescriptionRule (root : String) (d : ConfigDoc) (n : Node)
    (hmem : InTree n (handleLoadConfig root d.toJson).1)
    (l fp i : String) (ds tt : Option String) (ch : List Node)
    (hn : n = Node.File l fp i ds tt ch) :
    ds = if d.configs.showFolders then
           (if noteNonempty d (relativeOf root fp) then some "📝" else none)
         else secondToLastOpt (splitPath fp) := by
  have hQ := handleLoadConfig_inv root d.toJson d.configs.showFolders
    (showFoldersOf_toJson d)
    (FileOk root d.configs.showFolders d.notesVal)
    (fun m cs h => fileOk_withChildren root _ _ m cs h)
    (fun p cs => fileOk_folder root _ _ p cs)
    (fun fp2 ctx => by
      rw [getPropND_toJson_notes]
      exact fileOk_mkFileCore root _ _ fp2 ctx)
    (fun l2 cs _ => fileOk_section root _ _ l2 cs) n hmem
  have hd := hQ l fp i ds tt ch hn
  rw [hd, truthyO_noteValAt]
  cases d.configs.showFolders
  · rfl
  · rfl

/-- C6 witness instance: the noted file in grouped mode carries the glyph. -/
theorem fileDescriptionRule_witness :
    (some "📝" : Option String) = if notedDoc.configs.showFolders then
        (if noteNonempty notedDoc (relativeOf "root" "root/x/y.ts") then some "📝" else none)
      else secondToLastOpt (splitPath "root/x/y.ts") :=
  fileDescriptionRule "root" notedDoc
    (Node.File "y.ts" "root/x/y.ts" "root/x/y.tsA" (some "📝")
      (some "y.ts\n\n📝 Note: todo") [])
    (InTree.under
      (Node.Section "A" [Node.Folder "x"
        [Node.File "y.ts" "root/x/y.ts" "root/x/y.tsA" (some "📝")
          (some "y.ts\n\n📝 Note: todo") []]])
      (List.mem_singleton.mpr rfl)
      (InTree.under
        (Node.Folder "x" [Node.File "y.ts" "root/x/y.ts" "root/x/y.tsA" (some "📝")
          (some "y.ts\n\n📝 Note: todo") []])
        (List.mem_singleton.mpr rfl)
        (InTree.here (List.mem_singleton.mpr rfl))))
    "y.ts" "root/x/y.ts" "root/x/y.tsA" (some "📝") (some "y.ts\n\n📝 Note: todo") [] rfl

/-- C3 counterexample: a malformed document whose second context value is the
number `5` is caught and reported (two error notifications), yet the root item
list still holds Section `A` built before the failure — not the empty list the
claim requires. -/
theorem loadPartialTree :
    loadConfig "root" (.content halfBadDoc) =
      { items := [Node.Section "A"
          [Node.File "x.ts" "root/x.ts" "root/x.tsA" (some "root") none []]],
        warnings := [],
        errors := [errGenericMsg "root", errGenericMsg "root"], wrote := false } ∧
    (loadConfig "root" (.content halfBadDoc)).items.length = 1 := ⟨rfl, rfl⟩

/-- C3 (amended): every failure is caught at the load boundary and surfaced as
error notifications (`loadConfig` always returns a result; a construction
error never escapes), and the root list is empty when the content is not
well-formed JSON or when reading `configs.showFolders` throws (e.g. a missing
`configs` object); but an error thrown later, mid-construction, leaves the
sections already built in the root list. -/
theorem loadFailClosed :
    (∀ (root m : String), (loadConfig root (.unparsable m)).items = [] ∧
        (loadConfig root (.unparsable m)).errors ≠ []) ∧
    (∀ (root : String) (j : Json) (e : JsErr), showFoldersOf j = .error e →
        (loadConfig root (.content j)).items = [] ∧
        (loadConfig root (.content j)).errors ≠ []) ∧
    (∀ (root : String) (j : Json), (handleLoadConfig root j).2.isSome →
        (loadConfig root (.content j)).errors ≠ []) := by
  refine ⟨fun root m => ⟨rfl, by simp [loadConfig]⟩, ?_, ?_⟩
  · intro root j e hsf
    have hhl : handleLoadConfig root j = ([], some e) := by
      rw [handleLoadConfig, hsf]
    rw [loadConfig, hhl]
    exact ⟨rfl, by simp⟩
  · intro root j hsome
    rcases hhl : handleLoadConfig root j with ⟨items, oe⟩
    rcases oe with _ | e
    · rw [hhl] at hsome
      simp at hsome
    · rw [loadConfig, hhl]
      simp

/-- C3 witness instances of the amended theorem. -/
theorem loadFailClosed_witness :
    ((loadConfig "r" (.unparsable "boom")).items = [] ∧
      (loadConfig "r" (.unparsable "boom")).errors ≠ []) ∧
    ((loadConfig "r" (.content (.obj []))).items = [] ∧
      (loadConfig "r" (.content (.obj []))).errors ≠ []) ∧
    (loadConfig "root" (.content halfBadDoc)).errors ≠ [] :=
  ⟨loadFailClosed.1 "r" "boom",
   loadFailClosed.2.1 "r" (.obj []) .typeError rfl,
   loadFailClosed.2.2 "root" halfBadDoc rfl⟩

/-! ### Evaluation of the add-note command -/

theorem isEmpty_map {α β : Type} (f : α → β) (l : List α) :
    (l.map f).isEmpty = l.isEmpty := by
  cases l
  · rfl
  · rfl

theorem mem_delNote {l : List (String × String)} {k : String} :
    ∀ kv ∈ delNote l k, kv ∈ l := by
  induction l with
  | nil => intro kv h; simp [delNote] at h
  | cons kv1 rest ih =>
    intro kv h
    rcases kv1 with ⟨k1, v1⟩
    by_cases hk : k1 = k
    · rw [delNote, if_pos hk] at h
      exact List.mem_cons_of_mem _ h
    · rw [delNote, if_neg hk] at h
      rcases List.mem_cons.mp h with h | h
      · simp [h]
      · exact List.mem_cons_of_mem _ (ih kv h)

theorem lookupNote_isSome_mem {l : List (String × String)} {k v : String}
    (h : lookupNote l k = some v) : k ∈ l.map Prod.fst := by
  induction l with
  | nil => simp [lookupNote] at h
  | cons kv rest ih =>
    rcases kv with ⟨k1, v1⟩
    by_cases hk : k1 = k
    · simp [hk]
    · rw [lookupNote, if_neg hk] at h
      simp [ih h]

theorem lookupNote_delNote_self {l : List (String × String)} {k : String}
    (h : (l.map Prod.fst).Nodup) : lookupNote (delNote l k) k = none := by
  induction l with
  | nil => rfl
  | cons kv rest ih =>
    rcases kv with ⟨k1, v1⟩
    simp only [List.map_cons, List.nodup_cons] at h
    by_cases hk : k1 = k
    · rw [delNote, if_pos hk]
      subst hk
      rcases hlook : lookupNote rest k1 with _ | v2
      · rfl
      · exact absurd (lookupNote_isSome_mem hlook) h.1
    · rw [delNote, if_neg hk, lookupNote, if_neg hk]
      exact ih h.2

theorem setNotesInit_toJson_some (cs : List (String × List String))
    (ns : List (String × String)) (cfgs : Configs) :
    setNotesInit (ConfigDoc.toJson ⟨cs, some ns, cfgs⟩) =
      .ok (ConfigDoc.toJson ⟨cs, some ns, cfgs⟩) := rfl

theorem setNotesInit_toJson_none (cs : List (String × List String)) (cfgs : Configs) :
    setNotesInit (ConfigDoc.toJson ⟨cs, none, cfgs⟩) =
      .ok (.obj [("contexts", contextsJson cs), ("configs", configsJson cfgs),
                 ("notes", .obj [])]) := rfl

theorem applyNote_eval (fields nfs : List (String × Json)) (rel note : String)
    (hl : lookupField fields "notes" = some (.obj nfs)) :
    applyNote (.obj fields) rel note =
      .ok (.obj (if note = "" then
            (if (delField nfs rel).isEmpty then delField fields "notes"
             else setField fields "notes" (.obj (delField nfs rel)))
           else setField fields "notes" (.obj (setField nfs rel (.str note))))) := by
  simp only [applyNote, hl]
  split_ifs with h1 h2
  · rfl
  · rfl
  · rfl

theorem command_ok_step (root : String) (cfg0 cfg cfg2 : Json) (note fp : String)
    (h1 : setNotesInit cfg0 = .ok cfg)
    (h2 : applyNote cfg (relativeOf root fp) note = .ok cfg2) :
    addNoteToFileCommand ⟨some root, .content cfg0, some note, true⟩ fp =
      .ok ⟨some cfg2, some (stringify2 cfg2),
           some (if note = "" then "Note removed" else "Note saved"), none, true⟩ := by
  simp only [addNoteToFileCommand, h1, h2, if_true]

/-! ### Claim theorems for the add-note command -/

/-- C5: cancelling the prompt (the signal distinct from submitting the empty
string) performs no mutation whatever the surrounding state: nothing is
written to disk and no refresh is triggered. -/
theorem cancelNoMutation (wr : Option String) (s : FileState) (fp : String) (wOk : Bool) :
    cmdWritten (addNoteToFileCommand ⟨wr, s, none, wOk⟩ fp) = none ∧
    cmdRefreshed (addNoteToFileCommand ⟨wr, s, none, wOk⟩ fp) = false := by
  rcases wr with _ | root
  · exact ⟨rfl, rfl⟩
  · rcases s with _ | m | j
    · exact ⟨rfl, rfl⟩
    · exact ⟨rfl, rfl⟩
    · rcases h : setNotesInit j with e | cfg
      · simp [addNoteToFileCommand, h, cmdWritten, cmdRefreshed]
      · simp [addNoteToFileCommand, h, cmdWritten, cmdRefreshed]

theorem emptyNoteWriteAux (root : String) (d : ConfigDoc) (fp : String) :
    addNoteToFileCommand ⟨some root, .content d.toJson, some "", true⟩ fp =
      .ok ⟨some (emptyNoteResultDoc root d fp),
           some (stringify2 (emptyNoteResultDoc root d fp)),
           some "Note removed", none, true⟩ := by
  rcases d with ⟨cs, ns, cfgs⟩
  cases ns with
  | none =>
    have h2 : applyNote (.obj [("contexts", contextsJson cs), ("configs", configsJson cfgs),
        ("notes", .obj [])]) (relativeOf root fp) "" =
        .ok (emptyNoteResultDoc root ⟨cs, none, cfgs⟩ fp) := by
      rw [applyNote_eval [("contexts", contextsJson cs), ("configs", configsJson cfgs),
        ("notes", .obj [])] [] (relativeOf root fp) "" rfl]
      rfl
    rw [command_ok_step root _ _ _ "" fp (setNotesInit_toJson_none cs cfgs) h2]
    rfl
  | some ns =>
    have h2 : applyNote (ConfigDoc.toJson ⟨cs, some ns, cfgs⟩) (relativeOf root fp) "" =
        .ok (emptyNoteResultDoc root ⟨cs, some ns, cfgs⟩ fp) := by
      rw [show ConfigDoc.toJson ⟨cs, some ns, cfgs⟩ = Json.obj
          [("contexts", contextsJson cs), ("notes", notesJson ns),
           ("configs", configsJson cfgs)] from rfl]
      rw [applyNote_eval _ (ns.map (fun kv => (kv.1, Json.str kv.2))) _ "" (by rfl)]
      rw [if_pos rfl, delField_map_notes]
      rw [isEmpty_map]
      by_cases hemp : (delNote ns (relativeOf root fp)).isEmpty
      · rw [if_pos hemp]
        show _ = Except.ok (emptyNoteResultDoc root ⟨cs, some ns, cfgs⟩ fp)
        rw [show emptyNoteResultDoc root ⟨cs, some ns, cfgs⟩ fp =
          (if (delNote ns (relativeOf root fp)).isEmpty then
            Json.obj [("contexts", contextsJson cs), ("configs", configsJson cfgs)]
          else Json.obj [("contexts", contextsJson cs),
            ("notes", notesJson (delNote ns (relativeOf root fp))),
            ("configs", configsJson cfgs)]) from rfl]
        rw [if_pos hemp]
        rfl
      · rw [if_neg hemp]
        show _ = Except.ok (emptyNoteResultDoc root ⟨cs, some ns, cfgs⟩ fp)
        rw [show emptyNoteResultDoc root ⟨cs, some ns, cfgs⟩ fp =
          (if (delNote ns (relativeOf root fp)).isEmpty then
            Json.obj [("contexts", contextsJson cs), ("configs", configsJson cfgs)]
          else Json.obj [("contexts", contextsJson cs),
            ("notes", notesJson (delNote ns (relativeOf root fp))),
            ("configs", configsJson cfgs)]) from rfl]
        rw [if_neg hemp]
        rfl
    rw [command_ok_step root _ _ _ "" fp (setNotesInit_toJson_some cs ns cfgs) h2]
    rfl

/-- C10 (amended): submitting the empty string for a well-typed document
always rewrites the whole file (serialized by `JSON.stringify(·, null, 2)`)
and reports success (`Note removed`) with a refresh; the written document
lacks the `notes` key exactly when no other note entries remain after the
deletion — in particular when the document had no notes map at all — and
otherwise keeps the `notes` key with the remaining entries. -/
theorem emptyNoteWrite (root : String) (d : ConfigDoc) (fp : String) :
    addNoteToFileCommand ⟨some root, .content d.toJson, some "", true⟩ fp =
      .ok ⟨some (emptyNoteResultDoc root d fp),
           some (stringify2 (emptyNoteResultDoc root d fp)),
           some "Note removed", none, true⟩ :=
  emptyNoteWriteAux root d fp

/-- C10 counterexample: submitting the empty string for `a.ts` (which has no
note) against a document whose notes map holds an entry for `other.ts` still
writes the file and reports success, but the written document retains the
`notes` key — the claim's "contains no notes key" fails. -/
theorem emptyNoteKeepsOtherNotes :
    cmdWritten (addNoteToFileCommand
        ⟨some "r", .content otherNoteDoc.toJson, some "", true⟩ "r/a.ts") =
      some (.obj [("contexts", contextsJson []),
                  ("notes", .obj [("other.ts", .str "keep")]),
                  ("configs", configsJson ⟨true, false⟩)]) ∧
    lookupField [("contexts", contextsJson []),
                 ("notes", .obj [("other.ts", .str "keep")]),
                 ("configs", configsJson ⟨true, false⟩)] "notes" ≠ none :=
  ⟨rfl, by simp [lookupField]⟩

theorem addNote_set_twice (root : String) (fields nfs : List (String × Json))
    (fp note : String) (h : note ≠ "") :
    addNoteToFileCommand ⟨some root,
        .content (.obj (setField fields "notes"
          (.obj (setField nfs (relativeOf root fp) (.str note))))),
        some note, true⟩ fp =
      .ok ⟨some (.obj (setField fields "notes"
            (.obj (setField nfs (relativeOf root fp) (.str note))))),
           some (stringify2 (.obj (setField fields "notes"
            (.obj (setField nfs (relativeOf root fp) (.str note)))))),
           some "Note saved", none, true⟩ := by
  have h1 : setNotesInit (.obj (setField fields "notes"
      (.obj (setField nfs (relativeOf root fp) (.str note))))) =
      .ok (.obj (setField fields "notes"
        (.obj (setField nfs (relativeOf root fp) (.str note))))) := by
    simp [setNotesInit, lookupField_setField_self, truthyO, truthy]
  have h2 : applyNote (.obj (setField fields "notes"
      (.obj (setField nfs (relativeOf root fp) (.str note))))) (relativeOf root fp) note =
      .ok (.obj (setField fields "notes"
        (.obj (setField nfs (relativeOf root fp) (.str note))))) := by
    rw [applyNote_eval _ (setField nfs (relativeOf root fp) (.str note)) _ note
      (lookupField_setField_self _ _ _)]
    rw [if_neg h, setField_setField, setField_setField]
  rw [command_ok_step root _ _ _ note fp h1 h2, if_neg h]

/-- C8: submitting the same non-empty note text twice in a row for the same
target file leaves the configuration document after the second completed
operation identical to the document after the first (the second write persists
the very same value). -/
theorem addNoteIdempotent (root : String) (d : ConfigDoc) (fp note : String)
    (h : note ≠ "") :
    ∃ j1, cmdWritten (addNoteToFileCommand
        ⟨some root, .content d.toJson, some note, true⟩ fp) = some j1 ∧
      addNoteToFileCommand ⟨some root, .content j1, some note, true⟩ fp =
        .ok ⟨some j1, some (stringify2 j1), some "Note saved", none, true⟩ := by
  rcases d with ⟨cs, ns, cfgs⟩
  cases ns with
  | none =>
    refine ⟨.obj (setField [("contexts", contextsJson cs), ("configs", configsJson cfgs),
        ("notes", .obj [])] "notes" (.obj (setField [] (relativeOf root fp) (.str note)))),
      ?_, addNote_set_twice root _ [] fp note h⟩
    have h2 : applyNote (.obj [("contexts", contextsJson cs), ("configs", configsJson cfgs),
        ("notes", .obj [])]) (relativeOf root fp) note =
        .ok (.obj (setField [("contexts", contextsJson cs), ("configs", configsJson cfgs),
          ("notes", .obj [])] "notes"
          (.obj (setField [] (relativeOf root fp) (.str note))))) := by
      rw [applyNote_eval [("contexts", contextsJson cs), ("configs", configsJson cfgs),
        ("notes", .obj [])] [] (relativeOf root fp) note rfl]
      rw [if_neg h]
    rw [command_ok_step root _ _ _ note fp (setNotesInit_toJson_none cs cfgs) h2]
    rfl
  | some ns =>
    refine ⟨.obj (setField [("contexts", contextsJson cs), ("notes", notesJson ns),
        ("configs", configsJson cfgs)] "notes"
        (.obj (setField (ns.map (fun kv => (kv.1, Json.str kv.2)))
          (relativeOf root fp) (.str note)))),
      ?_, addNote_set_twice root _ _ fp note h⟩
    have h2 : applyNote (ConfigDoc.toJson ⟨cs, some ns, cfgs⟩) (relativeOf root fp) note =
        .ok (.obj (setField [("contexts", contextsJson cs), ("notes", notesJson ns),
          ("configs", configsJson cfgs)] "notes"
          (.obj (setField (ns.map (fun kv => (kv.1, Json.str kv.2)))
            (relativeOf root fp) (.str note))))) := by
      rw [show ConfigDoc.toJson ⟨cs, some ns, cfgs⟩ = Json.obj
          [("contexts", contextsJson cs), ("notes", notesJson ns),
           ("configs", configsJson cfgs)] from rfl]
      rw [applyNote_eval _ (ns.map (fun kv => (kv.1, Json.str kv.2)))
        (relativeOf root fp) note (by rfl)]
      rw [if_neg h]
    rw [command_ok_step root _ _ _ note fp (setNotesInit_toJson_some cs ns cfgs) h2]
    rfl

/-- C8 witness instance. -/
theorem addNoteIdempotent_witness :
    ∃ j1, cmdWritten (addNoteToFileCommand
        ⟨some "r", .content sharedFolderDoc.toJson, some "todo", true⟩ "r/x/y.ts") = some j1 ∧
      addNoteToFileCommand ⟨some "r", .content j1, some "todo", true⟩ "r/x/y.ts" =
        .ok ⟨some j1, some (stringify2 j1), some "Note saved", none, true⟩ :=
  addNoteIdempotent "r" sharedFolderDoc "r/x/y.ts" "todo" (by decide)

theorem emptyNoteResultDoc_some (root : String) (cs : List (String × List String))
    (ns : List (String × String)) (cfgs : Configs) (fp : String) :
    emptyNoteResultDoc root ⟨cs, some ns, cfgs⟩ fp =
      if (delNote ns (relativeOf root fp)).isEmpty then
        .obj [("contexts", contextsJson cs), ("configs", configsJson cfgs)]
      else .obj [("contexts", contextsJson cs),
        ("notes", notesJson (delNote ns (relativeOf root fp))),
        ("configs", configsJson cfgs)] := rfl

theorem mapped_notes_clean {ns : List (String × String)}
    (hclean : ∀ kv ∈ ns, kv.2 ≠ "") :
    ∀ kv ∈ ns.map (fun kv => (kv.1, Json.str kv.2)), kv.2 ≠ Json.str "" := by
  intro kv hkv
  rcases List.mem_map.mp hkv with ⟨kv0, h0, rfl⟩
  intro habs
  simp only [Json.str.injEq] at habs
  exact hclean kv0 h0 habs

/-- C4: for any completed add/update-note operation on a well-typed document
whose notes map satisfies the invariant (no empty-string values; keys
distinct, as `JSON.parse` guarantees), the persisted document again has no
empty-string note entry; submitting the empty string removes the target's
entry, and when the deletion leaves the notes map empty the `notes` key
itself is gone from the document. -/
theorem noteInvariant (root : String) (d : ConfigDoc) (fp note : String)
    (hclean : ∀ kv ∈ d.notes.getD [], kv.2 ≠ "")
    (hkeys : ((d.notes.getD []).map Prod.fst).Nodup) :
    ∃ d1, cmdWritten (addNoteToFileCommand
        ⟨some root, .content d.toJson, some note, true⟩ fp) = some (.obj d1) ∧
      (∀ v, lookupField d1 "notes" = some v →
        ∃ nfs, v = .obj nfs ∧ ∀ kv ∈ nfs, kv.2 ≠ Json.str "") ∧
      (note = "" → ∀ nfs, lookupField d1 "notes" = some (.obj nfs) →
        lookupField nfs (relativeOf root fp) = none) ∧
      (note = "" → delNote (d.notes.getD []) (relativeOf root fp) = [] →
        lookupField d1 "notes" = none) := by
  by_cases hn : note = ""
  · subst hn
    rcases d with ⟨cs, ns, cfgs⟩
    cases ns with
    | none =>
      refine ⟨[("contexts", contextsJson cs), ("configs", configsJson cfgs)],
        ?_, ?_, ?_, ?_⟩
      · rw [emptyNoteWriteAux root ⟨cs, none, cfgs⟩ fp]
        rfl
      · intro v hv
        rw [show lookupField [("contexts", contextsJson cs),
          ("configs", configsJson cfgs)] "notes" = none from rfl] at hv
        cases hv
      · intro _ nfs hv
        rw [show lookupField [("contexts", contextsJson cs),
          ("configs", configsJson cfgs)] "notes" = none from rfl] at hv
        cases hv
      · intro _ _
        rfl
    | some ns =>
      by_cases hemp : delNote ns (relativeOf root fp) = []
      · refine ⟨[("contexts", contextsJson cs), ("configs", configsJson cfgs)],
          ?_, ?_, ?_, ?_⟩
        · rw [emptyNoteWriteAux root ⟨cs, some ns, cfgs⟩ fp]
          show some (emptyNoteResultDoc root ⟨cs, some ns, cfgs⟩ fp) = _
          rw [emptyNoteResultDoc_some, if_pos (by simp [hemp])]
        · intro v hv
          rw [show lookupField [("contexts", contextsJson cs),
            ("configs", configsJson cfgs)] "notes" = none from rfl] at hv
          cases hv
        · intro _ nfs hv
          rw [show lookupField [("contexts", contextsJson cs),
            ("configs", configsJson cfgs)] "notes" = none from rfl] at hv
          cases hv
        · intro _ _
          rfl
      · refine ⟨[("contexts", contextsJson cs),
          ("notes", notesJson (delNote ns (relativeOf root fp))),
          ("configs", configsJson cfgs)], ?_, ?_, ?_, ?_⟩
        · rw [emptyNoteWriteAux root ⟨cs, some ns, cfgs⟩ fp]
          show some (emptyNoteResultDoc root ⟨cs, some ns, cfgs⟩ fp) = _
          rw [emptyNoteResultDoc_some, if_neg (by simp [List.isEmpty_iff, hemp])]
        · intro v hv
          rw [show lookupField [("contexts", contextsJson cs),
            ("notes", notesJson (delNote ns (relativeOf root fp))),
            ("configs", configsJson cfgs)] "notes" =
              some (notesJson (delNote ns (relativeOf root fp))) from rfl] at hv
          injection hv with hv
          subst hv
          refine ⟨(delNote ns (relativeOf root fp)).map (fun kv => (kv.1, Json.str kv.2)),
            by rfl, ?_⟩
          exact mapped_notes_clean (fun kv0 h0 => hclean kv0 (mem_delNote kv0 h0))
        · intro _ nfs hv
          rw [show lookupField [("contexts", contextsJson cs),
            ("notes", notesJson (delNote ns (relativeOf root fp))),
            ("configs", configsJson cfgs)] "notes" =
              some (Json.obj ((delNote ns (relativeOf root fp)).map
                (fun kv => (kv.1, Json.str kv.2)))) from rfl] at hv
          injection hv with hv
          injection hv with hv
          subst hv
          have hkeys2 : (ns.map Prod.fst).Nodup := hkeys
          rw [lookupField_map_notes, lookupNote_delNote_self hkeys2]
          rfl
        · intro _ habs
          exact absurd habs hemp
  · rcases d with ⟨cs, ns, cfgs⟩
    cases ns with
    | none =>
      refine ⟨setField [("contexts", contextsJson cs), ("configs", configsJson cfgs),
          ("notes", .obj [])] "notes"
          (.obj (setField [] (relativeOf root fp) (.str note))), ?_, ?_, ?_, ?_⟩
      · have h2 : applyNote (.obj [("contexts", contextsJson cs),
            ("configs", configsJson cfgs), ("notes", .obj [])]) (relativeOf root fp) note =
            .ok (.obj (setField [("contexts", contextsJson cs),
              ("configs", configsJson cfgs), ("notes", .obj [])] "notes"
              (.obj (setField [] (relativeOf root fp) (.str note))))) := by
          rw [applyNote_eval [("contexts", contextsJson cs), ("configs", configsJson cfgs),
            ("notes", .obj [])] [] (relativeOf root fp) note rfl]
          rw [if_neg hn]
        rw [command_ok_step root _ _ _ note fp (setNotesInit_toJson_none cs cfgs) h2]
        rfl
      · intro v hv
        rw [lookupField_setField_self] at hv
        injection hv with hv
        subst hv
        refine ⟨setField [] (relativeOf root fp) (.str note), rfl, ?_⟩
        intro kv hkv
        rcases mem_setField kv hkv with h | h
        · subst h
          intro habs
          simp only [Json.str.injEq] at habs
          exact hn habs
        · simp at h
      · intro habs
        exact absurd habs hn
      · intro habs
        exact absurd habs hn
    | some ns =>
      refine ⟨setField [("contexts", contextsJson cs), ("notes", notesJson ns),
          ("configs", configsJson cfgs)] "notes"
          (.obj (setField (ns.map (fun kv => (kv.1, Json.str kv.2)))
            (relativeOf root fp) (.str note))), ?_, ?_, ?_, ?_⟩
      · have h2 : applyNote (ConfigDoc.toJson ⟨cs, some ns, cfgs⟩) (relativeOf root fp) note =
            .ok (.obj (setField [("contexts", contextsJson cs), ("notes", notesJson ns),
              ("configs", configsJson cfgs)] "notes"
              (.obj (setField (ns.map (fun kv => (kv.1, Json.str kv.2)))
                (relativeOf root fp) (.str note))))) := by
          rw [show ConfigDoc.toJson ⟨cs, some ns, cfgs⟩ = Json.obj
              [("contexts", contextsJson cs), ("notes", notesJson ns),
               ("configs", configsJson cfgs)] from rfl]
          rw [applyNote_eval _ (ns.map (fun kv => (kv.1, Json.str kv.2)))
            (relativeOf root fp) note (by rfl)]
          rw [if_neg hn]
        rw [command_ok_step root _ _ _ note fp (setNotesInit_toJson_some cs ns cfgs) h2]
        rfl
      · intro v hv
        rw [lookupField_setField_self] at hv
        injection hv with hv
        subst hv
        refine ⟨setField (ns.map (fun kv => (kv.1, Json.str kv.2)))
          (relativeOf root fp) (.str note), rfl, ?_⟩
        intro kv hkv
        rcases mem_setField kv hkv with h | h
        · subst h
          intro habs
          simp only [Json.str.injEq] at habs
          exact hn habs
        · exact mapped_notes_clean hclean kv h
      · intro habs
        exact absurd habs hn
      · intro habs
        exact absurd habs hn

/-- C4 witness instance. -/
theorem noteInvariant_witness :
    ∃ d1, cmdWritten (addNoteToFileCommand
        ⟨some "r", .content otherNoteDoc.toJson, some "new", true⟩ "r/a.ts") = some (.obj d1) ∧
      (∀ v, lookupField d1 "notes" = some v →
        ∃ nfs, v = .obj nfs ∧ ∀ kv ∈ nfs, kv.2 ≠ Json.str "") ∧
      ("new" = "" → ∀ nfs, lookupField d1 "notes" = some (.obj nfs) →
        lookupField nfs (relativeOf "r" "r/a.ts") = none) ∧
      ("new" = "" → delNote (otherNoteDoc.notes.getD []) (relativeOf "r" "r/a.ts") = [] →
        lookupField d1 "notes" = none) :=
  noteInvariant "r" otherNoteDoc "r/a.ts" "new" (by decide) (by decide)
